import Mathlib

/-!
Shallow embedding of `scripts/generate-registry.js` (elizaos-plugins/registry).

The script's own functions are translated one-to-one from the source.  The
`semver` npm library that the script calls is an external dependency; the
fragments of its behaviour that the script exercises (version parsing and
cleaning, precedence comparison, range parsing and intersection) are modelled
here as executable Lean functions on the grammar subset the script's inputs
exercise.  External I/O (GitHub API, npm registry, filesystem) is modelled by
oracle values passed in explicitly; every fetch helper that catches its own
errors in the source is modelled as returning `Option`, and exceptions that
propagate are modelled with `Except`.
-/

/-- Three-way comparison of naturals (model of numeric field comparison in
semver precedence). -/
def cmpN (a b : Nat) : Ordering :=
  if a < b then .lt else if a = b then .eq else .gt

/-- Lexicographic comparison of character lists (model of JS string `<`
comparison used on alphanumeric pre-release identifiers; the identifiers the
script meets are ASCII, where UTF-16 order and code-point order agree). -/
def strCmp : List Char → List Char → Ordering
  | [], [] => .eq
  | [], _ :: _ => .lt
  | _ :: _, [] => .gt
  | c :: cs, d :: ds => (cmpN c.toNat d.toNat).then (strCmp cs ds)

/-- A single pre-release identifier: numeric identifiers compare numerically
and are always lower than alphanumeric identifiers (semver precedence rule). -/
inductive PreId where
  | num : Nat → PreId
  | str : List Char → PreId
deriving DecidableEq, Repr

/-- Comparison of two pre-release identifiers (model of semver's
`compareIdentifiers`). -/
def cmpPreId : PreId → PreId → Ordering
  | .num a, .num b => cmpN a b
  | .num _, .str _ => .lt
  | .str _, .num _ => .gt
  | .str a, .str b => strCmp a b

/-- Comparison of pre-release identifier lists: lexicographic, a strict prefix
being smaller (semver precedence rule for pre-release fields). -/
def cmpPreList : List PreId → List PreId → Ordering
  | [], [] => .eq
  | [], _ :: _ => .lt
  | _ :: _, [] => .gt
  | a :: as, b :: bs => (cmpPreId a b).then (cmpPreList as bs)

/-- A parsed semantic version.  Build metadata is accepted by the parser but
discarded, as semver precedence ignores it. -/
structure SemVer where
  major : Nat
  minor : Nat
  patch : Nat
  pre : List PreId
deriving DecidableEq, Repr

/-- Comparison of the pre-release components of two versions: a release
(empty list) outranks any pre-release; two pre-releases compare
lexicographically. -/
def cmpRel : List PreId → List PreId → Ordering
  | [], [] => .eq
  | [], _ :: _ => .gt
  | _ :: _, [] => .lt
  | p, q => cmpPreList p q

/-- Semver precedence comparison (model of `semver.compare`): numeric triple
first, then the pre-release rule. -/
def vcomp (a b : SemVer) : Ordering :=
  (cmpN a.major b.major).then ((cmpN a.minor b.minor).then
    ((cmpN a.patch b.patch).then (cmpRel a.pre b.pre)))

/-- The descending-precedence relation used to model sorting by
`semver.rcompare`: `vge a b` holds when `a` does not precede `b`. -/
def vge (a b : SemVer) : Prop := vcomp a b ≠ .lt

instance : DecidableRel vge := fun a b => by unfold vge; infer_instance

/-- Numeric value of a digit list. -/
def digitsToNat (ds : List Char) : Nat :=
  ds.foldl (fun n c => n * 10 + (c.toNat - '0'.toNat)) 0

/-- Parse a strict-semver numeric field from the front of a character list:
one or more digits, no leading zero unless the field is exactly "0". -/
def parseNumericCore (cs : List Char) : Option (Nat × List Char) :=
  let ds := cs.takeWhile Char.isDigit
  let rest := cs.dropWhile Char.isDigit
  match ds with
  | [] => none
  | d :: tail => if d = '0' ∧ tail ≠ [] then none else some (digitsToNat ds, rest)

/-- Characters allowed in semver pre-release / build identifiers. -/
def idChar (c : Char) : Bool := c.isDigit || c.isAlpha || c = '-'

/-- Split a character list on a separator character (model of JS
`String.prototype.split` with a one-character separator: empty chunks are
kept). -/
def splitOnC (sep : Char) (cs : List Char) : List (List Char) :=
  cs.foldr (fun c acc =>
    match acc with
    | [] => if c = sep then [[], []] else [[c]]
    | a :: as => if c = sep then [] :: a :: as else (c :: a) :: as) [[]]

/-- Parse one pre-release identifier (strict grammar): nonempty, characters
in [0-9A-Za-z-]; all-digit identifiers are numeric and may not have a leading
zero. -/
def parseOneId (cs : List Char) : Option PreId :=
  match cs with
  | [] => none
  | d :: tail =>
    if (cs.all idChar) = false then none
    else if cs.all Char.isDigit then
      if d = '0' ∧ tail ≠ [] then none else some (.num (digitsToNat cs))
    else some (.str cs)

/-- Parse the dot-separated pre-release identifier section. -/
def parsePreIds (cs : List Char) : Option (List PreId) :=
  (splitOnC '.' cs).mapM parseOneId

/-- Validate one build-metadata identifier: nonempty, characters in
[0-9A-Za-z-]. -/
def validBuildId (cs : List Char) : Bool := cs ≠ [] && cs.all idChar

/-- Parse the tail of a version after the numeric triple: an optional
"-prerelease" section and an optional "+build" section (build metadata is
validated but discarded, since semver precedence ignores it). -/
def parseTail (cs : List Char) : Option (List PreId) :=
  match cs with
  | [] => some []
  | '+' :: bs => if (splitOnC '.' bs).all validBuildId then some [] else none
  | '-' :: ps =>
    let preChars := ps.takeWhile (fun c => c ≠ '+')
    let buildPart := ps.dropWhile (fun c => c ≠ '+')
    match parsePreIds preChars with
    | none => none
    | some pre =>
      match buildPart with
      | [] => some pre
      | '+' :: bs => if (splitOnC '.' bs).all validBuildId then some pre else none
      | _ => none
  | _ => none

/-- Parse a full strict semver version, optionally preceded by a single "v"
(node-semver's strict grammar allows it); the whole list must be consumed. -/
def parseVerCore (cs0 : List Char) : Option SemVer := do
  let cs := match cs0 with
    | 'v' :: rest => rest
    | _ => cs0
  let (major, r1) ← parseNumericCore cs
  match r1 with
  | '.' :: r2 => do
    let (minor, r3) ← parseNumericCore r2
    match r3 with
    | '.' :: r4 => do
      let (patch, r5) ← parseNumericCore r4
      let pre ← parseTail r5
      pure ⟨major, minor, patch, pre⟩
    | _ => none
  | _ => none

/-- Model of `semver.parse` / `semver.valid` on a raw string (strict mode). -/
def semverParse (s : String) : Option SemVer := parseVerCore s.data

/-- Core of `semver.clean`: an already-trimmed character list with all
leading "=" and "v" characters removed, parsed strictly. -/
def cleanCore (cs : List Char) : Option SemVer :=
  parseVerCore (cs.dropWhile (fun c => c = '=' || c = 'v'))

/-- Model of JS `String.prototype.trim` (the whitespace the script's inputs
can carry is ASCII): drop whitespace from both ends. -/
def jsTrim (s : String) : String :=
  ⟨((s.data.dropWhile Char.isWhitespace).reverse.dropWhile Char.isWhitespace).reverse⟩

/-- Model of `semver.clean`: trim, strip leading "=" / "v", parse. -/
def semverClean (s : String) : Option SemVer := cleanCore (jsTrim s).data

/-- Parsed value of a version string, defaulting to 0.0.0 for strings that do
not parse; used only to state sorting relations, which the script only
evaluates on parseable strings. -/
def parseD (s : String) : SemVer := (semverParse s).getD ⟨0, 0, 0, []⟩

/-- Cleaned value of a version string, defaulting to 0.0.0. -/
def cleanD (s : String) : SemVer := (semverClean s).getD ⟨0, 0, 0, []⟩

/-- Descending order on raw npm version strings, as `sort(semver.rcompare)`
produces. -/
def verGe (a b : String) : Prop := vge (parseD a) (parseD b)

instance : DecidableRel verGe := fun a b => by unfold verGe; infer_instance

/-- Comparator operators of a node-semver range.  The empty operator of
node-semver (a bare pinned version inside a range) is `eqc`. -/
inductive CompOp where
  | eqc | ge | gt | le | lt
deriving DecidableEq, Repr

/-- A single range comparator, e.g. ">=1.2.3". -/
structure Cmptor where
  op : CompOp
  ver : SemVer
deriving DecidableEq, Repr

/-- A range is a conjunction of comparators; the empty list is the ANY range
("*", from a blank range string).  The script never builds "||" alternatives,
so a single conjunction suffices. -/
abbrev SvRange := List Cmptor

/-- Desugaring of a caret range "^M.m.p" into primitive comparators, as
node-semver's range parser does (upper bounds get a "-0" pre-release tag so
that pre-releases of the bound itself are excluded). -/
def caretDesugar (v : SemVer) : List Cmptor :=
  if v.major > 0 then [⟨.ge, v⟩, ⟨.lt, ⟨v.major + 1, 0, 0, [.num 0]⟩⟩]
  else if v.minor > 0 then [⟨.ge, v⟩, ⟨.lt, ⟨0, v.minor + 1, 0, [.num 0]⟩⟩]
  else [⟨.ge, v⟩, ⟨.lt, ⟨0, 0, v.patch + 1, [.num 0]⟩⟩]

/-- Desugaring of a tilde range "~M.m.p". -/
def tildeDesugar (v : SemVer) : List Cmptor :=
  [⟨.ge, v⟩, ⟨.lt, ⟨v.major, v.minor + 1, 0, [.num 0]⟩⟩]

/-- Parse one whitespace-separated range token into comparators.  This covers
the token forms the script's inputs exercise: "*", bare versions, "^"/"~"
ranges and the primitive comparator operators on full versions; other
node-semver token forms (x-ranges, partial versions, hyphen ranges) are out of
the modelled subset and yield `none`. -/
def parseTok (cs : List Char) : Option (List Cmptor) :=
  match cs with
  | ['*'] => some []
  | '>' :: '=' :: rest => (parseVerCore rest).map (fun v => [⟨.ge, v⟩])
  | '<' :: '=' :: rest => (parseVerCore rest).map (fun v => [⟨.le, v⟩])
  | '>' :: rest => (parseVerCore rest).map (fun v => [⟨.gt, v⟩])
  | '<' :: rest => (parseVerCore rest).map (fun v => [⟨.lt, v⟩])
  | '=' :: rest => (parseVerCore rest).map (fun v => [⟨.eqc, v⟩])
  | '^' :: rest => (parseVerCore rest).map caretDesugar
  | '~' :: rest => (parseVerCore rest).map tildeDesugar
  | _ => (parseVerCore cs).map (fun v => [⟨.eqc, v⟩])

/-- Split a character list into maximal whitespace-free runs. -/
def splitWs (cs : List Char) : List (List Char) :=
  ((splitOnC ' ' cs).map (fun run => run.filter (fun c => !c.isWhitespace))).filter
    (fun run => run ≠ [])

/-- Model of `semver.validRange` composed with node-semver's range parsing,
returning the comparator set instead of the normalized string (the script
only feeds the normalized string back into `semver.intersects`, which
re-parses it to this same comparator set).  A blank range is the ANY range,
as in node-semver. -/
def rangeParse (s : String) : Option SvRange :=
  match splitWs s.data with
  | [] => some []
  | toks => (toks.mapM parseTok).map List.flatten

/-- Does version `v` satisfy a single comparator (pre-releases included, as
the script always passes `includePrerelease: true`)? -/
def satisfiesCmp (v : SemVer) (c : Cmptor) : Bool :=
  match c.op with
  | .eqc => vcomp v c.ver = .eq
  | .ge => vcomp v c.ver ≠ .lt
  | .gt => vcomp v c.ver = .gt
  | .le => vcomp v c.ver ≠ .gt
  | .lt => vcomp v c.ver = .lt

/-- Model of node-semver `Comparator.prototype.intersects`: direction and
boundary analysis of a comparator pair. -/
def cmpIntersects (a b : Cmptor) : Bool :=
  match a.op, b.op with
  | .eqc, _ => satisfiesCmp a.ver b
  | _, .eqc => satisfiesCmp b.ver a
  | _, _ =>
    let aInc := a.op = .ge || a.op = .gt
    let bInc := b.op = .ge || b.op = .gt
    let aDec := a.op = .le || a.op = .lt
    let bDec := b.op = .le || b.op = .lt
    let aIncl := a.op = .ge || a.op = .le
    let bIncl := b.op = .ge || b.op = .le
    (aInc && bInc) || (aDec && bDec) ||
      (a.ver = b.ver && aIncl && bIncl) ||
      (vcomp a.ver b.ver = .lt && aInc && bDec) ||
      (vcomp a.ver b.ver = .gt && aDec && bInc)

/-- Model of `semver.intersects` on two single-conjunction ranges: every
comparator pair must intersect (an empty conjunction is ANY). -/
def rangeIntersects (r1 r2 : SvRange) : Bool :=
  r1.all (fun c1 => r2.all (fun c2 => cmpIntersects c1 c2))

/-- Model of JS `String.prototype.startsWith`. -/
def jsStartsWith (s p : String) : Bool := p.data.isPrefixOf s.data

/-- JS truthiness of an optional string field (absent and "" are falsy). -/
def jsTruthyS : Option String → Bool
  | some s => s ≠ ""
  | none => false

/-- Model of the JS `a || b` idiom on optional string fields. -/
def jsOrS (a b : Option String) : Option String :=
  if jsTruthyS a then a else if jsTruthyS b then b else none

/-- Translation of `normalizeDependencyRange` (generate-registry.js:34-66),
returning the parsed normalized range instead of the normalized string.
"latest" becomes ">=0.0.0"; an exact version V becomes ">=V"; URL-ish inputs
are rejected; everything else goes through `semver.validRange`. -/
def normalizeDependencyRange (depRange : Option String) : Option SvRange :=
  match depRange with
  | none => none
  | some s =>
    if s = "" then none
    else
      let trimmed := jsTrim s
      if trimmed = "latest" then some [⟨.ge, ⟨0, 0, 0, []⟩⟩]
      else
        match cleanCore trimmed.data with
        | some v => some [⟨.ge, v⟩]
        | none =>
          if jsStartsWith trimmed "http" || jsStartsWith trimmed "git" ||
              jsStartsWith trimmed "file:" then none
          else rangeParse trimmed

/-- Translation of `isCompatibleWithMajorVersion` (generate-registry.js:69-94):
does the plugin's core range intersect the major-version band, pre-releases
included?  The band is built by the same 0/1/2/general case split as the
source. -/
def isCompatibleWithMajorVersion (pluginCoreRange : Option String) (majorVersion : Nat) : Bool :=
  match normalizeDependencyRange pluginCoreRange with
  | none => false
  | some normalizedRange =>
    let band : SvRange :=
      if majorVersion = 0 then [⟨.ge, ⟨0, 0, 0, []⟩⟩, ⟨.lt, ⟨1, 0, 0, []⟩⟩]
      else if majorVersion = 1 then [⟨.ge, ⟨1, 0, 0, []⟩⟩, ⟨.lt, ⟨2, 0, 0, []⟩⟩]
      else if majorVersion = 2 then [⟨.ge, ⟨2, 0, 0, []⟩⟩, ⟨.lt, ⟨3, 0, 0, []⟩⟩]
      else [⟨.ge, ⟨majorVersion, 0, 0, []⟩⟩, ⟨.lt, ⟨majorVersion + 1, 0, 0, []⟩⟩]
    rangeIntersects normalizedRange band

/-- Translation of `parseGitRef` (generate-registry.js:97-103): strip the
"github:" scheme, split the remainder on "/", and require both the owner and
the repo part to be non-empty (JS destructuring plus truthiness check). -/
def dropPrefixCL : List Char → List Char → Option (List Char)
  | [], cs => some cs
  | _ :: _, [] => none
  | p :: ps, c :: cs => if p = c then dropPrefixCL ps cs else none

def parseGitRef (gitRef : String) : Option (String × String) :=
  match dropPrefixCL "github:".data gitRef.data with
  | none => none
  | some repoPath =>
    let parts := splitOnC '/' repoPath
    let owner := parts.headD []
    let repo := (parts.drop 1).headD []
    if owner = [] ∨ repo = [] then none
    else some (⟨owner⟩, ⟨repo⟩)

/-- Translation of `guessNpmName` (generate-registry.js:320-325): replace a
leading "@elizaos-plugins/" scope with "@elizaos/". -/
def guessNpmName (jsName : String) : String :=
  match dropPrefixCL "@elizaos-plugins/".data jsName.data with
  | some rest => ⟨"@elizaos/".data ++ rest⟩
  | none => jsName

/-- Translation of the inner helper `getCoreRangeMajor` of `processRepo`
(generate-registry.js:419-430).  The three regexes `/^[\d... ]/` test, in
order, for an optional leading "^" or "~" followed by "0.", "1." or "2.";
"latest" and everything else give null. -/
def coreDigitVal (d : Char) : Option Nat :=
  if d = '0' then some 0 else if d = '1' then some 1 else if d = '2' then some 2 else none

def coreDigit : List Char → Option Nat
  | d :: e :: _ => if e = '.' then coreDigitVal d else none
  | _ => none

def coreAnchor : List Char → Option Nat
  | [] => none
  | c :: rest => if c = '^' ∨ c = '~' then coreDigit rest else coreDigit (c :: rest)

def getCoreRangeMajor (range : Option String) : Option Nat :=
  match range with
  | none => none
  | some s =>
    if s = "" then none
    else
      let trimmed := jsTrim s
      if trimmed = "latest" then none
      else coreAnchor trimmed.data

/-- A git tag object as returned by the GitHub tags API (the script reads
only `name`). -/
structure TagObj where
  name : String
deriving DecidableEq, Repr

/-- Translation of `findLatestTagForMajor` (generate-registry.js:222-232).
`semver.major(semver.clean(tag.name))` throws (modelled as `Except.error`)
when a tag name does not clean to a valid version; the script's only caller
pre-filters such tags away.  From the already-descending list, the first
stable tag is the answer, else the head. -/
def filterTagMajor : List TagObj → Nat → Except String (List TagObj)
  | [], _ => .ok []
  | t :: ts, m =>
    match semverClean t.name with
    | none => .error "Invalid Version"
    | some v => do
      let rest ← filterTagMajor ts m
      pure (if v.major = m then t :: rest else rest)

def findLatestTagForMajor (sortedTags : List TagObj) (majorVersion : Nat) :
    Except String (Option TagObj) := do
  let majorTags ← filterTagMajor sortedTags majorVersion
  match majorTags with
  | [] => pure none
  | x :: xs =>
    match (x :: xs).find? (fun t => ((semverClean t.name).map (fun v => v.pre == [])).getD false) with
    | some stableTag => pure (some stableTag)
    | none => pure (some x)

/-- Descending clean-version order on tag objects, as
`sort((a, b) => semver.rcompare(semver.clean(a.name), semver.clean(b.name)))`
produces; the script sorts only pre-validated tags. -/
def tagGe (a b : TagObj) : Prop := vge (cleanD a.name) (cleanD b.name)

instance : DecidableRel tagGe := fun a b => by unfold tagGe; infer_instance

/-- Per-major latest-tag summary (return value of `getLatestGitTags`). -/
structure TagInfo where
  repo : String
  v0 : Option String
  v1 : Option String
  v2 : Option String
deriving DecidableEq, Repr

/-- Translation of `getLatestGitTags` (generate-registry.js:234-266).  The
listing oracle is `none` when the tags API call failed; the whole body sits
in a `try` whose `catch` returns the all-null record, which also covers any
exception escaping `findLatestTagForMajor` (unreachable after the validity
filter). -/
def getLatestGitTags (owner repo : String) (tagsListing : Option (List String)) : TagInfo :=
  let repoStr := owner ++ "/" ++ repo
  match tagsListing with
  | none => ⟨repoStr, none, none, none⟩
  | some names =>
    let validTags := (names.map TagObj.mk).filter (fun t => (semverClean t.name).isSome)
    let sorted := List.insertionSort tagGe validTags
    match findLatestTagForMajor sorted 0, findLatestTagForMajor sorted 1,
        findLatestTagForMajor sorted 2 with
    | .ok t0, .ok t1, .ok t2 =>
      ⟨repoStr, t0.map TagObj.name, t1.map TagObj.name, t2.map TagObj.name⟩
    | _, _, _ => ⟨repoStr, none, none, none⟩

/-- Translation of `findLatestNpmVersionForMajor` (generate-registry.js:269-279).
The filter predicate calls `semver.major(v)` on each raw version string, which
throws on an invalid version: modelled by `Except.error`, thrown at the first
invalid element, as JS `Array.prototype.filter` would. -/
def filterNpmMajor : List String → Nat → Except String (List String)
  | [], _ => .ok []
  | v :: vs, m =>
    match semverParse v with
    | none => .error "Invalid Version"
    | some sv => do
      let rest ← filterNpmMajor vs m
      pure (if sv.major = m then v :: rest else rest)

def findLatestNpmVersionForMajor (sortedVersions : List String) (majorVersion : Nat) :
    Except String (Option String) := do
  let majorVersions ← filterNpmMajor sortedVersions majorVersion
  match majorVersions with
  | [] => pure none
  | x :: xs =>
    match (x :: xs).find? (fun v => !(v.data.contains '-')) with
    | some stable => pure (some stable)
    | none => pure (some x)

/-- The npm registry metadata the script reads: the `versions` object, each
version mapping to its dependency fields on `@elizaos/core`. -/
structure NpmPkgDeps where
  depsCore : Option String
  peerDepsCore : Option String
deriving DecidableEq, Repr

structure NpmMeta where
  versions : List (String × NpmPkgDeps)
deriving DecidableEq, Repr

/-- Translation of `getCoreRangeFromNpmVersion` (generate-registry.js:282-287). -/
def getCoreRangeFromNpmVersion (meta : NpmMeta) (version : Option String) : Option String :=
  match version with
  | none => none
  | some v =>
    if v = "" then none
    else
      match (meta.versions.find? (fun kv => kv.1 = v)).map Prod.snd with
      | none => none
      | some pkg => jsOrS pkg.depsCore pkg.peerDepsCore

/-- Per-major npm summary (return value of `inspectNpm`). -/
structure NpmInfo where
  repo : String
  v0 : Option String
  v1 : Option String
  v2 : Option String
  v0CoreRange : Option String
  v1CoreRange : Option String
  v2CoreRange : Option String
deriving DecidableEq, Repr

/-- Descending sort of raw npm version keys, as `versions.sort(semver.rcompare)`
produces for all-valid keys (stable sort, consistent comparator). -/
def sortVersionsDesc (versions : List String) : List String :=
  List.insertionSort verGe versions

/-- Translation of `inspectNpm` (generate-registry.js:290-317).  The metadata
oracle is `none` when the fetch failed, the body was not JSON, or it had no
`versions` field.  `versions.sort(semver.rcompare)` and the subsequent
`semver.major` filters throw as soon as any version key is invalid (for a
single-key object the sort makes no comparison but the filter then throws),
so an invalid key is modelled as an up-front error; with all keys valid the
sort-then-select pipeline runs. -/
def inspectNpm (meta : Option NpmMeta) (pkgName : String) : Except String NpmInfo :=
  match meta with
  | none => .ok ⟨pkgName, none, none, none, none, none, none⟩
  | some m =>
    let versions := m.versions.map Prod.fst
    if versions.all (fun v => (semverParse v).isSome) then do
      let sorted := sortVersionsDesc versions
      let v0 ← findLatestNpmVersionForMajor sorted 0
      let v1 ← findLatestNpmVersionForMajor sorted 1
      let v2 ← findLatestNpmVersionForMajor sorted 2
      pure ⟨pkgName, v0, v1, v2, getCoreRangeFromNpmVersion m v0,
        getCoreRangeFromNpmVersion m v1, getCoreRangeFromNpmVersion m v2⟩
    else .error "Invalid Version"

/-- Optional app fields inside `elizaos.plugin.json` / `package.json`'s
`elizaos.app` object. -/
structure AppFields where
  displayName : Option String
  category : Option String
  launchType : Option String
  launchUrl : Option String
  icon : Option String
  capabilities : Option (List String)
  minPlayers : Option Nat
  maxPlayers : Option Nat
deriving DecidableEq, Repr

/-- The `elizaos` field of a `package.json`. -/
structure ElizaosField where
  kind : Option String
  app : Option AppFields
deriving DecidableEq, Repr

/-- Fields of a fetched `package.json` that the script reads.  `depsCore` and
`peerDepsCore` are the `@elizaos/core` entries of `dependencies` and
`peerDependencies`. -/
structure PkgJson where
  version : Option String
  depsCore : Option String
  peerDepsCore : Option String
  name : Option String
  elizaos : Option ElizaosField
deriving DecidableEq, Repr

/-- Fields of a fetched `elizaos.plugin.json`. -/
structure PluginJson where
  kind : Option String
  name : Option String
  app : Option AppFields
deriving DecidableEq, Repr

/-- Return value of `extractVersionInfo`. -/
structure VersionInfo where
  version : Option String
  coreRange : Option String
deriving DecidableEq, Repr

/-- Translation of `extractVersionInfo` (generate-registry.js:186-193) on a
non-null manifest. -/
def extractVI (p : PkgJson) : VersionInfo :=
  ⟨p.version, jsOrS p.depsCore p.peerDepsCore⟩

def extractVersionInfo (pkg : Option PkgJson) : Option VersionInfo :=
  pkg.map extractVI

/-- The inline test `info?.coreRange && !info.coreRange.startsWith("workspace:")`
of `fetchPackageJSON`. -/
def hasUsableCore (vi : VersionInfo) : Bool :=
  match vi.coreRange with
  | some c => c ≠ "" && !(jsStartsWith c "workspace:")
  | none => false

/-- Translation of `fetchPackageJSON` (generate-registry.js:196-219).  The
oracle `fetchFile path ref` models `fetchGitHubFile` after its catch (the
retry count does not change the resolved value).  The second component
records which paths were fetched, in order: the root manifest always, the
"typescript/package.json" fallback exactly when the root manifest exists but
its core range is absent or a workspace placeholder. -/
def fetchPackageJSON (fetchFile : String → String → Option PkgJson) (ref : String) :
    Option VersionInfo × List String :=
  match fetchFile "package.json" ref with
  | none => (none, ["package.json"])
  | some rootPkg =>
    let rootInfo := extractVI rootPkg
    if hasUsableCore rootInfo then (some rootInfo, ["package.json"])
    else
      match fetchFile "typescript/package.json" ref with
      | some tsPkg =>
        let tsInfo := extractVI tsPkg
        if hasUsableCore tsInfo then (some tsInfo, ["package.json", "typescript/package.json"])
        else (some rootInfo, ["package.json", "typescript/package.json"])
      | none => (some rootInfo, ["package.json", "typescript/package.json"])

/-- A resolved manifest with the branch it came from (`{ ...pkg, branch }`). -/
structure PkgEntry where
  version : Option String
  coreRange : Option String
  branch : String
deriving DecidableEq, Repr

/-- Per-epoch support flags (`supportsV0/V1/V2`). -/
structure Supports where
  v0 : Bool
  v1 : Bool
  v2 : Bool
deriving DecidableEq, Repr

/-- Per-epoch representative branches (`supportedBranches`). -/
structure SupportedBranches where
  v0 : Option String
  v1 : Option String
  v2 : Option String
deriving DecidableEq, Repr

/-- An optional string field after a JS truthiness test ("" coerces to
absent). -/
def jsStrOpt (o : Option String) : Option String := if jsTruthyS o then o else none

/-- One iteration of the branch-evidence loop (generate-registry.js:385-412):
a manifest with a truthy version and core range whose cleaned version has
major 0 (resp. 1, resp. at least 2) and whose core range intersects that
band marks the epoch supported and overwrites the epoch's branch. -/
def branchStep (acc : Supports × SupportedBranches) (pkg : PkgEntry) :
    Supports × SupportedBranches :=
  if jsTruthyS pkg.version && jsTruthyS pkg.coreRange then
    match semverClean (pkg.version.getD "") with
    | none => acc
    | some cleanedVersion =>
      let pkgMajor := cleanedVersion.major
      let satisfiesV0Core := isCompatibleWithMajorVersion pkg.coreRange 0
      let satisfiesV1Core := isCompatibleWithMajorVersion pkg.coreRange 1
      let satisfiesV2Core := isCompatibleWithMajorVersion pkg.coreRange 2
      let acc1 := if pkgMajor = 0 ∧ satisfiesV0Core = true then
          ({ acc.1 with v0 := true }, { acc.2 with v0 := some pkg.branch }) else acc
      let acc2 := if pkgMajor = 1 ∧ satisfiesV1Core = true then
          ({ acc1.1 with v1 := true }, { acc1.2 with v1 := some pkg.branch }) else acc1
      if 2 ≤ pkgMajor ∧ satisfiesV2Core = true then
          ({ acc2.1 with v2 := true }, { acc2.2 with v2 := some pkg.branch }) else acc2
  else acc

/-- The whole branch-evidence pass, started from all-unsupported /
no-branches. -/
def branchPass (pkgs : List PkgEntry) : Supports × SupportedBranches :=
  pkgs.foldl branchStep (⟨false, false, false⟩, ⟨none, none, none⟩)

/-- Support flag of an epoch. -/
def flagGet (s : Supports) (k : Nat) : Bool :=
  if k = 0 then s.v0 else if k = 1 then s.v1 else if k = 2 then s.v2 else false

/-- Set an epoch's support flag (the `if/else if` assignment chains of the
npm-evidence loop; epochs other than 0, 1, 2 take no branch). -/
def setFlag (s : Supports) (k : Nat) : Supports :=
  if k = 0 then { s with v0 := true }
  else if k = 1 then { s with v1 := true }
  else if k = 2 then { s with v2 := true }
  else s

/-- Field access `npmInfo?.[key]` for the three check keys. -/
def npmGetVer (n : NpmInfo) (key : String) : Option String :=
  if key = "v0" then n.v0 else if key = "v1" then n.v1
  else if key = "v2" then n.v2 else none

/-- Field access `npmInfo?.[key + "CoreRange"]`. -/
def npmGetCore (n : NpmInfo) (key : String) : Option String :=
  if key = "v0" then n.v0CoreRange else if key = "v1" then n.v1CoreRange
  else if key = "v2" then n.v2CoreRange else none

/-- The version-mismatch issue string (generate-registry.js:462). -/
def mismatchMsg (key npmVersion : String) (coreTargetMajor : Nat) (npmCoreRange : String) :
    String :=
  "⚠️ " ++ key ++ " package (" ++ npmVersion ++ ") depends on v" ++
    toString coreTargetMajor ++ " core (" ++ npmCoreRange ++ ") - version mismatch"

/-- One iteration of the npm-evidence loop (generate-registry.js:440-464). -/
def npmCheckStep (npmInfo : NpmInfo) (st : Supports × List String) (chk : String × Nat) :
    Supports × List String :=
  let key := chk.1
  let expectedMajor := chk.2
  let npmVersion := jsStrOpt (npmGetVer npmInfo key)
  let npmCoreRange := jsStrOpt (npmGetCore npmInfo key)
  match npmVersion, npmCoreRange with
  | some ver, some r =>
    (match semverClean ver with
     | none => st
     | some cleanedVersion =>
       let pkgMajor := cleanedVersion.major
       let coreTargetMajor := getCoreRangeMajor (some r)
       let s1 := if pkgMajor = expectedMajor ∧
           isCompatibleWithMajorVersion (some r) expectedMajor = true then
         setFlag st.1 expectedMajor else st.1
       match coreTargetMajor with
       | some d =>
         if d ≠ expectedMajor then (setFlag s1 d, st.2 ++ [mismatchMsg key ver d r])
         else (s1, st.2)
       | none => (s1, st.2))
  | _, _ => st

/-- The fixed check list `npmVersionChecks` (generate-registry.js:434-438). -/
def npmVersionChecks : List (String × Nat) := [("v0", 0), ("v1", 1), ("v2", 2)]

/-- The whole npm-evidence pass over `npmVersionChecks`. -/
def applyNpmChecks (npmInfo : NpmInfo) (s : Supports) (issues : List String) :
    Supports × List String :=
  npmVersionChecks.foldl (npmCheckStep npmInfo) (s, issues)

/-- Repository metadata (`getGitHubRepoInfo`'s result; its catch already
substitutes the defaults, so the oracle carries the resolved record). -/
structure RepoInfo where
  description : Option String
  homepage : Option String
  topics : List String
  stargazersCount : Nat
  language : Option String
deriving DecidableEq, Repr

/-- Per-epoch display version and representative branch in the entry's git
info. -/
structure GitVer where
  version : Option String
  branch : Option String
deriving DecidableEq, Repr

structure GitInfo where
  repo : String
  v0 : GitVer
  v1 : GitVer
  v2 : GitVer
deriving DecidableEq, Repr

/-- App metadata attached to entries that self-declare as applications. -/
structure AppMeta where
  displayName : String
  category : String
  launchType : String
  launchUrl : Option String
  icon : Option String
  capabilities : List String
  minPlayers : Option Nat
  maxPlayers : Option Nat
deriving DecidableEq, Repr

/-- A defaulted string field (`x || "default"`). -/
def jsGetS (o : Option String) (d : String) : String :=
  match jsStrOpt o with
  | some s => s
  | none => d

/-- A numeric field under `x || null` (0 is falsy in JS). -/
def jsNumOrNull (o : Option Nat) : Option Nat :=
  match o with
  | some 0 => none
  | some n => some n
  | none => none

/-- The default display name: the npm id with a leading "@elizaos/app-"
prefix removed. -/
def stripAppScope (npmId : String) : String :=
  match dropPrefixCL "@elizaos/app-".data npmId.data with
  | some rest => ⟨rest⟩
  | none => npmId

/-- Build the app-metadata record from raw `app` fields, a fallback `name`
field and the npm id (generate-registry.js:504-513 and its two analogues). -/
def buildAppMeta (a : AppFields) (nameField : Option String) (npmId : String) : AppMeta :=
  { displayName := jsGetS (jsOrS a.displayName nameField) (stripAppScope npmId)
    category := jsGetS a.category "game"
    launchType := jsGetS a.launchType "url"
    launchUrl := jsStrOpt a.launchUrl
    icon := jsStrOpt a.icon
    capabilities := a.capabilities.getD []
    minPlayers := jsNumOrNull a.minPlayers
    maxPlayers := jsNumOrNull a.maxPlayers }

/-- App detection on an `elizaos.plugin.json` manifest (generate-registry.js:
502-514, 535-549): requires `kind === "app"` and a present `app` object. -/
def checkPluginManifest (pm : Option PluginJson) (npmId : String) : Option AppMeta :=
  match pm with
  | some p =>
    match p.app with
    | some a => if p.kind = some "app" then some (buildAppMeta a p.name npmId) else none
    | none => none
  | none => none

/-- App detection on a `package.json`'s `elizaos` field (generate-registry.js:
517-532). -/
def checkPkgApp (pk : Option PkgJson) (npmId : String) : Option AppMeta :=
  match pk with
  | some p =>
    match p.elizaos with
    | some ez =>
      match ez.app with
      | some a => if ez.kind = some "app" then some (buildAppMeta a p.name npmId) else none
      | none => none
    | none => none
  | none => none

/-- Preferred branch for the app-metadata fetches (generate-registry.js:
497-499): "main", else "master", else the first candidate, else "main". -/
def appMetaBranch (branchCandidates : List String) : String :=
  match branchCandidates.find? (fun b => b = "main") with
  | some b => b
  | none =>
    match branchCandidates.find? (fun b => b = "master") with
    | some b => b
    | none =>
      match branchCandidates with
      | [] => "main"
      | b :: _ => if b = "" then "main" else b

/-- The external world one repository's resolution sees, after each fetch
helper's own retry/catch layer: `branches` is `getGitHubBranches`' result
(`[]` when the API failed), `pkgFile`/`pluginFile` model `fetchGitHubFile`
keyed by path and ref (`none` when a fetch failed or the file is absent),
`tags` is the raw tag listing (`none` when the tags API failed), `npm` maps a
package name to its registry metadata (`none` for a fetch failure or a
missing `versions` field), and `repoInfo` is `getGitHubRepoInfo`'s result. -/
structure RepoEnv where
  branches : List String
  pkgFile : String → String → Option PkgJson
  pluginFile : String → String → Option PluginJson
  tags : Option (List String)
  npm : String → Option NpmMeta
  repoInfo : RepoInfo

/-- One output registry entry. -/
structure RegistryEntry where
  git : GitInfo
  npm : NpmInfo
  supports : Supports
  description : Option String
  homepage : Option String
  topics : List String
  stargazersCount : Nat
  language : Option String
  kind : Option String
  app : Option AppMeta
deriving DecidableEq, Repr

/-- App-metadata resolution inside `processRepo` (generate-registry.js:
494-549): plugin manifest first, then the package.json `elizaos` field, then
the monorepo plugin manifest. -/
def computeAppMeta (env : RepoEnv) (branchCandidates : List String) (npmId : String) :
    Option AppMeta :=
  let amb := appMetaBranch branchCandidates
  match checkPluginManifest (env.pluginFile "elizaos.plugin.json" amb) npmId with
  | some m => some m
  | none =>
    match checkPkgApp (env.pkgFile "package.json" amb) npmId with
    | some m => some m
    | none => checkPluginManifest (env.pluginFile "typescript/elizaos.plugin.json" amb) npmId

/-- The fixed candidate-branch preference list filtered to existing branches
(generate-registry.js:351-353). -/
def branchCandidatesOf (branches : List String) : List String :=
  ["main", "master", "0.x", "1.x", "2.x", "next"].filter (fun b => branches.contains b)

def noBranchesMsg : String := "No branches found (might be API issue)"

def noStdBranchesMsg (branches : List String) : String :=
  "No standard branches found (has: " ++ String.intercalate ", " (branches.take 3) ++
    (if branches.length > 3 then "..." else "") ++ ")"

/-- Translation of `processRepo` (generate-registry.js:328-570).  Throws
(`Except.error`) exactly where the source's promise rejects: on an
unparsable git reference, and when `inspectNpm` throws on an invalid
registry version key.  All other failures were already caught inside the
individual fetch helpers and appear as degraded oracle values. -/
def processRepo (npmId gitRef : String) (env : RepoEnv) :
    Except String (String × RegistryEntry × List String) := do
  match parseGitRef gitRef with
  | none => throw ("Invalid git reference: " ++ gitRef)
  | some (owner, repo) =>
    let branches := env.branches
    let issues0 : List String := if branches.length = 0 then [noBranchesMsg] else []
    let branchCandidates := branchCandidatesOf branches
    let issues1 := if branchCandidates.length = 0 ∧ branches.length > 0
      then issues0 ++ [noStdBranchesMsg branches] else issues0
    let pkgs : List PkgEntry := branchCandidates.filterMap (fun br =>
      match (fetchPackageJSON env.pkgFile br).1 with
      | some info => some ⟨info.version, info.coreRange, br⟩
      | none => none)
    let bp := branchPass pkgs
    let gitTagInfo := getLatestGitTags owner repo env.tags
    let npmInfo ← inspectNpm (env.npm (guessNpmName npmId)) (guessNpmName npmId)
    let checked := applyNpmChecks npmInfo bp.1 issues1
    let gitInfo : GitInfo :=
      { repo := jsGetS (some gitTagInfo.repo) (jsGetS (some npmInfo.repo) (owner ++ "/" ++ repo))
        v0 := ⟨jsOrS gitTagInfo.v0 npmInfo.v0, bp.2.v0⟩
        v1 := ⟨jsOrS gitTagInfo.v1 npmInfo.v1, bp.2.v1⟩
        v2 := ⟨jsOrS gitTagInfo.v2 npmInfo.v2, bp.2.v2⟩ }
    let appMeta := computeAppMeta env branchCandidates npmId
    let entry : RegistryEntry :=
      { git := gitInfo, npm := npmInfo, supports := checked.1
        description := env.repoInfo.description, homepage := env.repoInfo.homepage
        topics := env.repoInfo.topics, stargazersCount := env.repoInfo.stargazersCount
        language := env.repoInfo.language
        kind := if appMeta.isSome then some "app" else none
        app := appMeta }
    pure (npmId, entry, checked.2)

/-- A catalog JSON value: a string, or anything else (filtered out). -/
inductive JVal where
  | str : String → JVal
  | other : JVal
deriving DecidableEq, Repr

/-- The generated report: a timestamp plus the sorted registry object,
modelled as an insertion-ordered association list (the catalog keys are npm
package names, never integer-like, so JS object order is insertion order). -/
structure Report where
  lastUpdatedAt : String
  registry : List (String × RegistryEntry)
deriving DecidableEq, Repr

/-- Catalog filtering (generate-registry.js:590-597): keep entries whose key
is non-empty (and non-blank after trim) and whose value is a string starting
with "github:". -/
def filterCatalog (input : List (String × JVal)) : List (String × String) :=
  input.filterMap (fun kv =>
    match kv.2 with
    | .str v =>
      if kv.1 ≠ "" ∧ jsTrim kv.1 ≠ "" ∧ jsStartsWith v "github:" = true
      then some (kv.1, v) else none
    | .other => none)

/-- Lexicographic (code-unit) string order, as JS string comparison and the
default `Array.prototype.sort` use; on the ASCII catalog keys in play the
UTF-16 and code-point orders agree. -/
def strLe (a b : String) : Prop := strCmp b.data a.data ≠ .lt

instance : DecidableRel strLe := fun a b => by unfold strLe; infer_instance

/-- Catalog-key order used before processing (`localeCompare`, modelled as
lexicographic string order; only the processing order depends on it, and the
final report is re-sorted anyway). -/
def keyLe (a b : String × String) : Prop := strLe a.1 b.1

instance : DecidableRel keyLe := fun a b => by unfold keyLe; infer_instance

def sortEntries (l : List (String × String)) : List (String × String) :=
  List.insertionSort keyLe l

/-- Processing of all catalog entries (generate-registry.js:609-633).  The
source runs them in batches joined by `Promise.all`; any rejection rejects
the whole run, and absent rejections the batched and the sequential traversal
compute the same per-entry results, so the batch loop is modelled as a
sequential traversal that propagates the first error. -/
def runEntries (env : String → RepoEnv) (l : List (String × String)) :
    Except String (List (String × RegistryEntry × List String)) :=
  l.mapM (fun kv => processRepo kv.1 kv.2 (env kv.1))

/-- Insert-or-replace into an insertion-ordered string-keyed object (JS
`report[id] = info` for non-integer-like keys). -/
def objInsert (k : String) (v : RegistryEntry) :
    List (String × RegistryEntry) → List (String × RegistryEntry)
  | [] => [(k, v)]
  | (k', v') :: rest => if k' = k then (k, v) :: rest else (k', v') :: objInsert k v rest

/-- Fold of per-entry results into the report object. -/
def buildReport (results : List (String × RegistryEntry × List String)) :
    List (String × RegistryEntry) :=
  results.foldl (fun rep r => objInsert r.1 r.2.1 rep) []

/-- The issues summary `allIssues`: entries whose issue list is non-empty, in
processing order. -/
def collectIssues (results : List (String × RegistryEntry × List String)) :
    List (String × List String) :=
  results.filterMap (fun r => if r.2.2 ≠ [] then some (r.1, r.2.2) else none)

/-- Object property lookup `report[key]`. -/
def lookupS (k : String) : List (String × RegistryEntry) → Option RegistryEntry
  | [] => none
  | (k', v) :: rest => if k' = k then some v else lookupS k rest

/-- The final re-sort (generate-registry.js:645-649):
`Object.keys(report).sort().forEach(key => sortedReport[key] = report[key])`. -/
def sortReport (rep : List (String × RegistryEntry)) : List (String × RegistryEntry) :=
  (List.insertionSort strLe (rep.map Prod.fst)).filterMap
    (fun k => (lookupS k rep).map (fun e => (k, e)))

/-- Translation of `parseRegistry` (generate-registry.js:573-655) from the
point where the catalog JSON has been read (file I/O and the fatal
missing-token check live outside, in `main`).  `now` stands for
`new Date().toISOString()`.  The issues map is returned alongside the report
(the source prints it as the end-of-run summary). -/
def parseRegistry (now : String) (input : List (String × JVal)) (env : String → RepoEnv) :
    Except String (Report × List (String × List String)) := do
  let entries := sortEntries (filterCatalog input)
  let results ← runEntries env entries
  let report := buildReport results
  pure ({ lastUpdatedAt := now, registry := sortReport report }, collectIssues results)

/-- An inert repository environment for concrete evaluations: no branches,
no files, failed tag listing, unknown npm package, defaulted repo metadata. -/
def emptyRepoEnv : RepoEnv :=
  { branches := []
    pkgFile := fun _ _ => none
    pluginFile := fun _ _ => none
    tags := none
    npm := fun _ => none
    repoInfo := ⟨none, none, [], 0, none⟩ }

/-- Does one resolved manifest qualify as epoch-`k` evidence in the
branch-evidence loop: truthy version and core range, cleanable version whose
major is `k` (at least 2 for `k = 2`), and a core range intersecting band
`k`. -/
def qualifiesAt (k : Nat) (pkg : PkgEntry) : Bool :=
  if jsTruthyS pkg.version && jsTruthyS pkg.coreRange then
    match semverClean (pkg.version.getD "") with
    | none => false
    | some v =>
      if (if k = 2 then 2 ≤ v.major else v.major = k) ∧
          isCompatibleWithMajorVersion pkg.coreRange k = true
      then true else false
  else false

/-- The branch recorded by the loop for epoch `k`: that of the last
qualifying manifest in candidate order. -/
def lastQual (k : Nat) : List PkgEntry → Option String
  | [] => none
  | p :: rest =>
    match lastQual k rest with
    | some b => some b
    | none => if qualifiesAt k p then some p.branch else none

/-- A per-entry result with the three tag-fed display version fields of its
git info blanked; everything else (supports, branches, npm info, repository
metadata, issues, app metadata) is kept. -/
def stripTagVersions (x : String × RegistryEntry × List String) :
    String × RegistryEntry × List String :=
  (x.1,
    { x.2.1 with git :=
      { x.2.1.git with
        v0 := { x.2.1.git.v0 with version := none }
        v1 := { x.2.1.git.v1 with version := none }
        v2 := { x.2.1.git.v2 with version := none } } },
    x.2.2)

/-- Strict lexicographic string order. -/
def strLt (a b : String) : Prop := strCmp a.data b.data = .lt

/-- The npm best-version selection as `inspectNpm` composes it: sort the
version keys descending by `semver.rcompare`, then pick per major. -/
def selectBestNpmVersion (versions : List String) (m : Nat) : Except String (Option String) :=
  findLatestNpmVersionForMajor (sortVersionsDesc versions) m

/-- Validity of the npm metadata an entry will consult: every version key of
the registry metadata (when present) is a valid semver version.  Real
registry responses satisfy this; an invalid key makes `inspectNpm` throw. -/
def npmValidFor (env : RepoEnv) (npmId : String) : Prop :=
  match env.npm (guessNpmName npmId) with
  | none => True
  | some m => ∀ s ∈ m.versions.map Prod.fst, (semverParse s).isSome = true

theorem cmpN_swap (a b : Nat) : cmpN a b = (cmpN b a).swap := by
  unfold cmpN
  rcases Nat.lt_trichotomy a b with h | h | h
  · rw [if_pos h, if_neg (by omega), if_neg (by omega)]; rfl
  · subst h; rw [if_neg (by omega : ¬a < a), if_pos rfl]; rfl
  · rw [if_neg (by omega), if_neg (by omega), if_pos h]; rfl

theorem cmpN_eq_iff (a b : Nat) : cmpN a b = .eq ↔ a = b := by
  unfold cmpN
  rcases Nat.lt_trichotomy a b with h | h | h
  · rw [if_pos h]; constructor <;> intro h' <;> [cases h'; omega]
  · subst h; rw [if_neg (by omega), if_pos rfl]; simp
  · rw [if_neg (by omega), if_neg (by omega)]
    constructor <;> intro h' <;> [cases h'; omega]

theorem cmpN_lt_iff (a b : Nat) : cmpN a b = .lt ↔ a < b := by
  unfold cmpN
  rcases Nat.lt_trichotomy a b with h | h | h
  · rw [if_pos h]; simp [h]
  · subst h; rw [if_neg (by omega), if_pos rfl]
    constructor <;> intro h' <;> [cases h'; omega]
  · rw [if_neg (by omega), if_neg (by omega)]
    constructor <;> intro h' <;> [cases h'; omega]

theorem cmpN_lt_trans {a b c : Nat} (h1 : cmpN a b = .lt) (h2 : cmpN b c = .lt) :
    cmpN a c = .lt := by
  rw [cmpN_lt_iff] at *
  omega

theorem cmpN_refl (a : Nat) : cmpN a a = .eq := by simp [cmpN]

theorem strCmp_swap : ∀ a b : List Char, strCmp a b = (strCmp b a).swap
  | [], [] => rfl
  | [], _ :: _ => rfl
  | _ :: _, [] => rfl
  | c :: cs, d :: ds => by
    simp only [strCmp, cmpN_swap c.toNat d.toNat, strCmp_swap cs ds]
    cases cmpN d.toNat c.toNat <;> cases strCmp ds cs <;> rfl

theorem strCmp_eq_iff : ∀ a b : List Char, strCmp a b = .eq ↔ a = b
  | [], [] => by simp [strCmp]
  | [], _ :: _ => by simp [strCmp]
  | _ :: _, [] => by simp [strCmp]
  | c :: cs, d :: ds => by
    simp only [strCmp]
    constructor
    · intro h
      have h1 : cmpN c.toNat d.toNat = .eq := by
        cases h' : cmpN c.toNat d.toNat <;> simp [h', Ordering.then] at h ⊢
      have h2 : strCmp cs ds = .eq := by
        rw [h1] at h; simpa [Ordering.then] using h
      have hn : c.toNat = d.toNat := (cmpN_eq_iff _ _).mp h1
      have hcd : c = d := Char.ext (UInt32.ext hn)
      rw [hcd, (strCmp_eq_iff cs ds).mp h2]
    · intro h
      injection h with h1 h2
      rw [h1, h2, cmpN_refl, (strCmp_eq_iff ds ds).mpr rfl]
      rfl

theorem strCmp_lt_trans : ∀ {a b c : List Char},
    strCmp a b = .lt → strCmp b c = .lt → strCmp a c = .lt
  | [], [], _, h1, _ => by simp [strCmp] at h1
  | [], _ :: _, [], _, h2 => by simp [strCmp] at h2
  | [], _ :: _, _ :: _, _, _ => by simp [strCmp]
  | _ :: _, [], _, h1, _ => by simp [strCmp] at h1
  | _ :: _, _ :: _, [], _, h2 => by simp [strCmp] at h2
  | a :: as, b :: bs, c :: cs, h1, h2 => by
    simp only [strCmp] at h1 h2 ⊢
    cases hab : cmpN a.toNat b.toNat <;> rw [hab] at h1 <;>
      cases hbc : cmpN b.toNat c.toNat <;> rw [hbc] at h2 <;>
      simp [Ordering.then] at h1 h2 ⊢
    · -- a < b, b < c
      rw [cmpN_lt_trans hab hbc]
    · -- a < b, b = c
      rw [(cmpN_eq_iff _ _).mp hbc] at hab
      rw [hab]
    · -- a = b, b < c
      rw [(cmpN_eq_iff _ _).mp hab]
      rw [hbc]
    · -- a = b, b = c
      rw [(cmpN_eq_iff _ _).mp hab, hbc]
      simp [Ordering.then]
      exact strCmp_lt_trans h1 h2

theorem cmpPreId_swap (a b : PreId) : cmpPreId a b = (cmpPreId b a).swap := by
  cases a <;> cases b
  · exact cmpN_swap _ _
  · rfl
  · rfl
  · exact strCmp_swap _ _

theorem cmpPreId_eq_iff (a b : PreId) : cmpPreId a b = .eq ↔ a = b := by
  cases a <;> cases b <;>
    simp only [cmpPreId, cmpN_eq_iff, strCmp_eq_iff, PreId.num.injEq, PreId.str.injEq] <;>
    simp

theorem cmpPreId_lt_trans {a b c : PreId} (h1 : cmpPreId a b = .lt)
    (h2 : cmpPreId b c = .lt) : cmpPreId a c = .lt := by
  cases a <;> cases b <;> cases c <;> simp_all [cmpPreId]
  · exact cmpN_lt_trans h1 h2
  · exact strCmp_lt_trans h1 h2

theorem cmpPreList_swap : ∀ a b : List PreId, cmpPreList a b = (cmpPreList b a).swap
  | [], [] => rfl
  | [], _ :: _ => rfl
  | _ :: _, [] => rfl
  | a :: as, b :: bs => by
    simp only [cmpPreList, cmpPreId_swap a b, cmpPreList_swap as bs]
    cases cmpPreId b a <;> cases cmpPreList bs as <;> rfl

theorem cmpPreList_eq_iff : ∀ a b : List PreId, cmpPreList a b = .eq ↔ a = b
  | [], [] => by simp [cmpPreList]
  | [], _ :: _ => by simp [cmpPreList]
  | _ :: _, [] => by simp [cmpPreList]
  | a :: as, b :: bs => by
    simp only [cmpPreList]
    constructor
    · intro h
      have h1 : cmpPreId a b = .eq := by
        cases h' : cmpPreId a b <;> simp [h', Ordering.then] at h ⊢
      have h2 : cmpPreList as bs = .eq := by
        rw [h1] at h; simpa [Ordering.then] using h
      rw [(cmpPreId_eq_iff a b).mp h1, (cmpPreList_eq_iff as bs).mp h2]
    · intro h
      injection h with h1 h2
      rw [h1, h2, (cmpPreId_eq_iff b b).mpr rfl, (cmpPreList_eq_iff bs bs).mpr rfl]
      rfl

theorem cmpPreList_lt_trans : ∀ {a b c : List PreId},
    cmpPreList a b = .lt → cmpPreList b c = .lt → cmpPreList a c = .lt
  | [], [], _, h1, _ => by simp [cmpPreList] at h1
  | [], _ :: _, [], _, h2 => by simp [cmpPreList] at h2
  | [], _ :: _, _ :: _, _, _ => by simp [cmpPreList]
  | _ :: _, [], _, h1, _ => by simp [cmpPreList] at h1
  | _ :: _, _ :: _, [], _, h2 => by simp [cmpPreList] at h2
  | a :: as, b :: bs, c :: cs, h1, h2 => by
    simp only [cmpPreList] at h1 h2 ⊢
    cases hab : cmpPreId a b <;> rw [hab] at h1 <;>
      cases hbc : cmpPreId b c <;> rw [hbc] at h2 <;>
      simp [Ordering.then] at h1 h2 ⊢
    · rw [cmpPreId_lt_trans hab hbc]
    · rw [(cmpPreId_eq_iff _ _).mp hbc] at hab
      rw [hab]
    · rw [(cmpPreId_eq_iff _ _).mp hab]
      rw [hbc]
    · rw [(cmpPreId_eq_iff _ _).mp hab, hbc]
      simp [Ordering.then]
      exact cmpPreList_lt_trans h1 h2

theorem cmpRel_swap : ∀ a b : List PreId, cmpRel a b = (cmpRel b a).swap
  | [], [] => rfl
  | [], _ :: _ => rfl
  | _ :: _, [] => rfl
  | _ :: _, _ :: _ => by
    show cmpPreList _ _ = (cmpPreList _ _).swap
    exact cmpPreList_swap _ _

theorem cmpRel_eq_iff : ∀ a b : List PreId, cmpRel a b = .eq ↔ a = b
  | [], [] => by simp [cmpRel]
  | [], _ :: _ => by simp [cmpRel]
  | _ :: _, [] => by simp [cmpRel]
  | _ :: _, _ :: _ => by
    show cmpPreList _ _ = .eq ↔ _
    rw [cmpPreList_eq_iff]

theorem cmpRel_lt_trans : ∀ {a b c : List PreId},
    cmpRel a b = .lt → cmpRel b c = .lt → cmpRel a c = .lt
  | [], [], _, h1, _ => by simp [cmpRel] at h1
  | [], _ :: _, _, h1, _ => by simp [cmpRel] at h1
  | _ :: _, [], [], _, h2 => by simp [cmpRel] at h2
  | _ :: _, [], _ :: _, _, h2 => by simp [cmpRel] at h2
  | _ :: _, _ :: _, [], _, _ => by simp [cmpRel]
  | _ :: _, _ :: _, _ :: _, h1, h2 => by
    show cmpPreList _ _ = .lt
    exact cmpPreList_lt_trans h1 h2

theorem then_swap (x y : Ordering) : (x.then y).swap = x.swap.then y.swap := by
  cases x <;> cases y <;> rfl

theorem then_eq_eq {x y : Ordering} : x.then y = .eq ↔ x = .eq ∧ y = .eq := by
  cases x <;> cases y <;> simp [Ordering.then]

theorem then_eq_lt {x y : Ordering} : x.then y = .lt ↔ x = .lt ∨ (x = .eq ∧ y = .lt) := by
  cases x <;> cases y <;> simp [Ordering.then]

theorem vcomp_swap (a b : SemVer) : vcomp a b = (vcomp b a).swap := by
  unfold vcomp
  rw [then_swap, then_swap, then_swap, ← cmpN_swap, ← cmpN_swap, ← cmpN_swap, ← cmpRel_swap]

theorem vcomp_eq_iff (a b : SemVer) : vcomp a b = .eq ↔ a = b := by
  cases a; cases b
  simp [vcomp, then_eq_eq, cmpN_eq_iff, cmpRel_eq_iff, SemVer.mk.injEq, and_assoc]

theorem vcomp_refl (a : SemVer) : vcomp a a = .eq := (vcomp_eq_iff a a).mpr rfl

theorem then_lt_trans_nat {a b c : Nat} {x y z : Ordering}
    (h1 : (cmpN a b).then x = .lt) (h2 : (cmpN b c).then y = .lt)
    (hcont : a = b → b = c → x = .lt → y = .lt → z = .lt) :
    (cmpN a c).then z = .lt := by
  rw [then_eq_lt] at h1 h2 ⊢
  rcases h1 with h1 | ⟨h1e, h1x⟩
  · rcases h2 with h2 | ⟨h2e, _⟩
    · exact Or.inl (cmpN_lt_trans h1 h2)
    · rw [(cmpN_eq_iff b c).mp h2e] at h1
      exact Or.inl h1
  · rcases h2 with h2 | ⟨h2e, h2y⟩
    · rw [← (cmpN_eq_iff a b).mp h1e] at h2
      exact Or.inl h2
    · have hab := (cmpN_eq_iff a b).mp h1e
      have hbc := (cmpN_eq_iff b c).mp h2e
      refine Or.inr ⟨(cmpN_eq_iff a c).mpr (hab.trans hbc), hcont hab hbc h1x h2y⟩

theorem vcomp_lt_trans {a b c : SemVer} (h1 : vcomp a b = .lt) (h2 : vcomp b c = .lt) :
    vcomp a c = .lt := by
  unfold vcomp at *
  refine then_lt_trans_nat h1 h2 (fun _ _ g1 g2 => ?_)
  refine then_lt_trans_nat g1 g2 (fun _ _ f1 f2 => ?_)
  refine then_lt_trans_nat f1 f2 (fun _ _ e1 e2 => ?_)
  exact cmpRel_lt_trans e1 e2

theorem vge_total (a b : SemVer) : vge a b ∨ vge b a := by
  unfold vge
  by_cases h : vcomp a b = .lt
  · right
    rw [vcomp_swap b a, h]
    simp [Ordering.swap]
  · exact Or.inl h

theorem vge_trans {a b c : SemVer} (h1 : vge a b) (h2 : vge b c) : vge a c := by
  unfold vge at *
  intro hac
  rcases hab : vcomp a b with _ | _ | _
  · exact h1 hab
  · rw [(vcomp_eq_iff a b).mp hab] at hac
    exact h2 hac
  · rcases hbc : vcomp b c with _ | _ | _
    · exact h2 hbc
    · rw [(vcomp_eq_iff b c).mp hbc] at hab
      rw [hac] at hab
      cases hab
    · have hcb : vcomp c b = .lt := by
        rw [vcomp_swap c b, hbc]; rfl
      have : vcomp a b = .lt := vcomp_lt_trans hac hcb
      rw [this] at hab
      cases hab

theorem vge_refl (a : SemVer) : vge a a := by
  unfold vge
  rw [vcomp_refl a]
  simp

example : semverParse "1.2.3" = some ⟨1, 2, 3, []⟩ := rfl

example : semverParse "v2.0.0" = some ⟨2, 0, 0, []⟩ := rfl

example : semverParse "2.0.0-beta.1" = some ⟨2, 0, 0, [.str ['b', 'e', 't', 'a'], .num 1]⟩ := rfl

example : semverParse "garbage" = none := rfl

example : semverParse "01.2.3" = none := rfl

example : semverParse "1.2.3+b-1" = some ⟨1, 2, 3, []⟩ := rfl

example : semverClean " =v1.2.3 " = some ⟨1, 2, 3, []⟩ := by decide

example : semverClean "latest" = none := by decide

example : isCompatibleWithMajorVersion (some "1.2.3") 2 = true := by decide

example : isCompatibleWithMajorVersion (some "^0.25.6") 0 = true := by decide

example : isCompatibleWithMajorVersion (some "^1.0.0") 2 = false := by decide

example : isCompatibleWithMajorVersion (some "workspace:*") 1 = false := by decide

example : isCompatibleWithMajorVersion (some "latest") 2 = true := by decide

example : getCoreRangeMajor (some "^2.0.0") = some 2 := by decide

example : getCoreRangeMajor (some "1.2.3") = some 1 := by decide

example : getCoreRangeMajor (some "~0.25.6") = some 0 := by decide

example : getCoreRangeMajor (some ">=1.0.0") = none := by decide

example : getCoreRangeMajor (some "latest") = none := by decide

example : getCoreRangeMajor (some "^3.0.0") = none := by decide

example : findLatestNpmVersionForMajor (sortVersionsDesc ["2.0.0-beta.1", "2.0.0"]) 2 =
    .ok (some "2.0.0") := rfl

example : findLatestNpmVersionForMajor (sortVersionsDesc ["garbage"]) 2 =
    .error "Invalid Version" := rfl

theorem strCmp_ge_total (a b : List Char) : strCmp a b ≠ .lt ∨ strCmp b a ≠ .lt := by
  by_cases h : strCmp a b = .lt
  · right
    rw [strCmp_swap b a, h]
    simp [Ordering.swap]
  · exact Or.inl h

theorem strCmp_ge_trans {a b c : List Char} (h1 : strCmp a b ≠ .lt)
    (h2 : strCmp b c ≠ .lt) : strCmp a c ≠ .lt := by
  intro hac
  rcases hab : strCmp a b with _ | _ | _
  · exact h1 hab
  · rw [(strCmp_eq_iff a b).mp hab] at hac
    exact h2 hac
  · rcases hbc : strCmp b c with _ | _ | _
    · exact h2 hbc
    · rw [(strCmp_eq_iff b c).mp hbc] at hab
      rw [hac] at hab
      cases hab
    · have hcb : strCmp c b = .lt := by
        rw [strCmp_swap c b, hbc]; rfl
      have : strCmp a b = .lt := strCmp_lt_trans hac hcb
      rw [this] at hab
      cases hab

theorem coreDigit_dot (d : Char) (t : List Char) : coreDigit (d :: '.' :: t) = coreDigitVal d := by
  simp [coreDigit]

theorem coreDigit_none_head (d : Char) (t : List Char) (h0 : d ≠ '0') (h1 : d ≠ '1')
    (h2 : d ≠ '2') : coreDigit (d :: t) = none := by
  cases t with
  | nil => rfl
  | cons e t' =>
    simp only [coreDigit, coreDigitVal, if_neg h0, if_neg h1, if_neg h2]
    split <;> rfl

theorem jsTrim_empty : (jsTrim "").data = [] := rfl

/-- The stricter dominant-epoch classifier anchors exactly the epochs 0, 1
and 2 that its three hand-written regexes test for: a trimmed range of the
shape "d.", "^d." or "~d." is classified to `coreDigitVal d` (an epoch only
for d in 0..2); a trimmed range starting with an inequality operator, and the
literal "latest", classify to none. -/
theorem getCoreRangeMajor_cases :
    (∀ (s : String) (d : Char) (rest : List Char),
      ((jsTrim s).data = d :: '.' :: rest ∨ (jsTrim s).data = '^' :: d :: '.' :: rest ∨
        (jsTrim s).data = '~' :: d :: '.' :: rest) →
      getCoreRangeMajor (some s) = coreDigitVal d)
    ∧ (∀ (s : String) (c : Char) (rest : List Char),
      (jsTrim s).data = c :: rest → (c = '>' ∨ c = '<') →
      getCoreRangeMajor (some s) = none)
    ∧ (∀ s : String, jsTrim s = "latest" → getCoreRangeMajor (some s) = none) := by
  refine ⟨?_, ?_, ?_⟩
  · intro s d rest h
    have hs : s ≠ "" := by
      intro he
      subst he
      rw [jsTrim_empty] at h
      rcases h with h | h | h <;> cases h
    have hl : jsTrim s ≠ "latest" := by
      intro he
      rw [he] at h
      rcases h with h | h | h
      · injection h with h1 h2
        injection h2 with h3 _
        exact absurd h3 (by decide)
      · injection h with h1 _
        exact absurd h1 (by decide)
      · injection h with h1 _
        exact absurd h1 (by decide)
    simp only [getCoreRangeMajor]
    rw [if_neg hs, if_neg hl]
    rcases h with h | h | h <;> rw [h]
    · show coreAnchor (d :: '.' :: rest) = coreDigitVal d
      simp only [coreAnchor]
      by_cases hd : d = '^' ∨ d = '~'
      · rw [if_pos hd]
        have : coreDigit ('.' :: rest) = none :=
          coreDigit_none_head '.' rest (by decide) (by decide) (by decide)
        rw [this]
        rcases hd with rfl | rfl <;> decide
      · rw [if_neg hd, coreDigit_dot]
    · show coreAnchor ('^' :: d :: '.' :: rest) = coreDigitVal d
      simp [coreAnchor, coreDigit_dot]
    · show coreAnchor ('~' :: d :: '.' :: rest) = coreDigitVal d
      simp [coreAnchor, coreDigit_dot]
  · intro s c rest h hc
    have hs : s ≠ "" := by
      intro he
      subst he
      rw [jsTrim_empty] at h
      cases h
    have hl : jsTrim s ≠ "latest" := by
      intro he
      rw [he] at h
      injection h with h1 _
      rcases hc with rfl | rfl <;> exact absurd h1 (by decide)
    simp only [getCoreRangeMajor]
    rw [if_neg hs, if_neg hl, h]
    show coreAnchor (c :: rest) = none
    simp only [coreAnchor]
    rcases hc with rfl | rfl
    · rw [if_neg (by decide)]
      exact coreDigit_none_head '>' rest (by decide) (by decide) (by decide)
    · rw [if_neg (by decide)]
      exact coreDigit_none_head '<' rest (by decide) (by decide) (by decide)
  · intro s h
    have hs : s ≠ "" := by
      intro he
      subst he
      exact absurd h (by decide)
    simp only [getCoreRangeMajor]
    rw [if_neg hs, if_pos h]

theorem getCoreRangeMajor_cases_witness :
    getCoreRangeMajor (some "~2.1.0") = some 2 ∧ getCoreRangeMajor (some ">=1.0.0") = none ∧
      getCoreRangeMajor (some "latest") = none :=
  ⟨(getCoreRangeMajor_cases.1 "~2.1.0" '2' "1.0".data
      (Or.inr (Or.inr (by decide)))).trans (by decide),
    getCoreRangeMajor_cases.2.1 ">=1.0.0" '>' "=1.0.0".data (by decide) (Or.inl rfl),
    getCoreRangeMajor_cases.2.2 "latest" (by decide)⟩

/-- The claim's "for every epoch N" generalization fails at N = 3: the
classifier's hand-written tests stop at major line 2, so the caret range
"^3.0.0", unambiguously anchored to major 3, classifies to none rather than
to epoch 3. -/
theorem getCoreRangeMajor_epoch3_counterexample :
    getCoreRangeMajor (some "^3.0.0") ≠ some 3 ∧ getCoreRangeMajor (some "^3.0.0") = none :=
  ⟨by decide, by decide⟩

/-- Range normalization rewrites every valid exact version V (anything
`semver.clean` accepts) to the open-ended range ">=V"; consequently the
pinned low version "1.2.3" intersects the epoch-2 band, while the
dominant-epoch classifier still maps "1.2.3" to epoch 1. -/
theorem normalizeExactVersion_spec :
    (∀ (s : String) (v : SemVer), cleanCore (jsTrim s).data = some v →
      normalizeDependencyRange (some s) = some [⟨.ge, v⟩])
    ∧ isCompatibleWithMajorVersion (some "1.2.3") 2 = true
    ∧ getCoreRangeMajor (some "1.2.3") = some 1 := by
  refine ⟨?_, by decide, by decide⟩
  intro s v h
  have hs : s ≠ "" := by
    intro he
    subst he
    rw [jsTrim_empty] at h
    have hnone : cleanCore ([] : List Char) = none := rfl
    rw [hnone] at h
    cases h
  have hl : jsTrim s ≠ "latest" := by
    intro he
    rw [he] at h
    have hnone : cleanCore ("latest" : String).data = none := rfl
    rw [hnone] at h
    cases h
  simp only [normalizeDependencyRange]
  rw [if_neg hs, if_neg hl, h]

theorem normalizeExactVersion_spec_witness :
    normalizeDependencyRange (some "1.2.3") = some [⟨.ge, ⟨1, 2, 3, []⟩⟩] :=
  normalizeExactVersion_spec.1 "1.2.3" ⟨1, 2, 3, []⟩ (by decide)

theorem dropPrefixCL_append : ∀ p r : List Char, dropPrefixCL p (p ++ r) = some r
  | [], _ => rfl
  | c :: ps, r => by simp [dropPrefixCL, dropPrefixCL_append ps r]

/-- Package-index lookups never use the catalog identifier directly: a
leading "@elizaos-plugins/" scope is rewritten to "@elizaos/", identifiers
without that prefix are used unchanged, and the entry's npm info is exactly
the index inspection of the rewritten name. -/
theorem guessNpmName_spec :
    (∀ rest : String, guessNpmName ("@elizaos-plugins/" ++ rest) = "@elizaos/" ++ rest)
    ∧ (∀ s : String, dropPrefixCL "@elizaos-plugins/".data s.data = none →
      guessNpmName s = s)
    ∧ (∀ (npmId gitRef : String) (env : RepoEnv) (r : String × RegistryEntry × List String),
      processRepo npmId gitRef env = .ok r →
      inspectNpm (env.npm (guessNpmName npmId)) (guessNpmName npmId) = .ok r.2.1.npm) := by
  refine ⟨?_, ?_, ?_⟩
  · intro rest
    simp only [guessNpmName]
    rw [show ("@elizaos-plugins/" ++ rest).data = "@elizaos-plugins/".data ++ rest.data from
      String.data_append "@elizaos-plugins/" rest]
    rw [dropPrefixCL_append]
    rfl
  · intro s h
    simp only [guessNpmName]
    rw [h]
  · intro npmId gitRef env r h
    rcases hpg : parseGitRef gitRef with _ | ⟨owner, repo⟩ <;>
      simp only [processRepo, hpg] at h
    · cases h
    · rcases hn : inspectNpm (env.npm (guessNpmName npmId)) (guessNpmName npmId) with e | n <;>
        simp only [bind, Except.bind, hn] at h
      · cases h
      · simp only [pure, Except.pure] at h
        injection h with h'
        subst h'
        first
        | exact hn
        | exact hn.symm
        | rfl

theorem guessNpmName_spec_witness :
    guessNpmName "@elizaos-plugins/plugin-sql" = "@elizaos/plugin-sql" ∧
      guessNpmName "@acme/tool" = "@acme/tool" ∧
      inspectNpm (emptyRepoEnv.npm (guessNpmName "p")) (guessNpmName "p") =
        .ok ((processRepo "p" "github:o/r" emptyRepoEnv).toOption.get (by decide)).2.1.npm :=
  ⟨(guessNpmName_spec.1 "plugin-sql").trans (by decide),
    guessNpmName_spec.2.1 "@acme/tool" (by decide),
    guessNpmName_spec.2.2 "p" "github:o/r" emptyRepoEnv _ rfl⟩

/-- Manifest resolution: an absent root manifest makes the whole resolution
absent with no secondary fetch; a root manifest whose core range is a
workspace placeholder triggers exactly one secondary fetch at the fixed
sub-path, whose result supersedes the root's only when it carries a usable
(non-placeholder) core range, the root info being returned as-is otherwise. -/
theorem fetchPackageJSON_spec :
    (∀ (f : String → String → Option PkgJson) (ref : String),
      f "package.json" ref = none →
      fetchPackageJSON f ref = (none, ["package.json"]))
    ∧ (∀ (f : String → String → Option PkgJson) (ref : String) (p : PkgJson) (c : String),
      f "package.json" ref = some p →
      (extractVI p).coreRange = some c → jsStartsWith c "workspace:" = true →
      fetchPackageJSON f ref =
        ((match f "typescript/package.json" ref with
          | some tsPkg =>
            if hasUsableCore (extractVI tsPkg) then some (extractVI tsPkg)
            else some (extractVI p)
          | none => some (extractVI p)),
          ["package.json", "typescript/package.json"])) := by
  constructor
  · intro f ref h
    simp only [fetchPackageJSON, h]
  · intro f ref p c h hc hw
    have hfalse : hasUsableCore (extractVI p) = false := by
      simp only [hasUsableCore]
      rw [hc]
      simp [hw]
    simp only [fetchPackageJSON, h, hfalse]
    rcases hts : f "typescript/package.json" ref with _ | tsPkg <;> simp only [hts]
    · simp
    · by_cases h2 : hasUsableCore (extractVI tsPkg) = true <;> simp [h2]

theorem fetchPackageJSON_spec_witness :
    fetchPackageJSON (fun path _ => if path = "package.json"
        then some ⟨some "1.0.0", some "workspace:*", none, none, none⟩
        else some ⟨some "1.0.0", some "^1.0.0", none, none, none⟩) "main"
      = (some ⟨some "1.0.0", some "^1.0.0"⟩, ["package.json", "typescript/package.json"]) :=
  (fetchPackageJSON_spec.2 (fun path _ => if path = "package.json"
        then some ⟨some "1.0.0", some "workspace:*", none, none, none⟩
        else some ⟨some "1.0.0", some "^1.0.0", none, none, none⟩) "main"
      ⟨some "1.0.0", some "workspace:*", none, none, none⟩ "workspace:*"
      rfl rfl rfl).trans (by decide)

theorem branchStep_fields (acc : Supports × SupportedBranches) (pkg : PkgEntry) :
    ((branchStep acc pkg).2.v0 =
        (if qualifiesAt 0 pkg then some pkg.branch else acc.2.v0)) ∧
    ((branchStep acc pkg).2.v1 =
        (if qualifiesAt 1 pkg then some pkg.branch else acc.2.v1)) ∧
    ((branchStep acc pkg).2.v2 =
        (if qualifiesAt 2 pkg then some pkg.branch else acc.2.v2)) ∧
    ((branchStep acc pkg).1.v0 = (acc.1.v0 || qualifiesAt 0 pkg)) ∧
    ((branchStep acc pkg).1.v1 = (acc.1.v1 || qualifiesAt 1 pkg)) ∧
    ((branchStep acc pkg).1.v2 = (acc.1.v2 || qualifiesAt 2 pkg)) := by
  unfold branchStep qualifiesAt
  by_cases hg : (jsTruthyS pkg.version && jsTruthyS pkg.coreRange) = true
  · simp only [hg, if_true]
    cases hc : semverClean (pkg.version.getD "") with
    | none => simp
    | some v =>
      by_cases h0 : v.major = 0 ∧ isCompatibleWithMajorVersion pkg.coreRange 0 = true <;>
        by_cases h1 : v.major = 1 ∧ isCompatibleWithMajorVersion pkg.coreRange 1 = true <;>
        by_cases h2 : 2 ≤ v.major ∧ isCompatibleWithMajorVersion pkg.coreRange 2 = true <;>
        simp [h0, h1, h2]
  · simp only [Bool.not_eq_true] at hg
    simp [hg]

theorem branchFold_spec : ∀ (pkgs : List PkgEntry) (acc : Supports × SupportedBranches),
    ((pkgs.foldl branchStep acc).2.v0 =
        (match lastQual 0 pkgs with | some b => some b | none => acc.2.v0)) ∧
    ((pkgs.foldl branchStep acc).2.v1 =
        (match lastQual 1 pkgs with | some b => some b | none => acc.2.v1)) ∧
    ((pkgs.foldl branchStep acc).2.v2 =
        (match lastQual 2 pkgs with | some b => some b | none => acc.2.v2)) ∧
    ((pkgs.foldl branchStep acc).1.v0 = (acc.1.v0 || pkgs.any (qualifiesAt 0))) ∧
    ((pkgs.foldl branchStep acc).1.v1 = (acc.1.v1 || pkgs.any (qualifiesAt 1))) ∧
    ((pkgs.foldl branchStep acc).1.v2 = (acc.1.v2 || pkgs.any (qualifiesAt 2)))
  | [], acc => by simp [lastQual]
  | p :: rest, acc => by
    obtain ⟨b0, b1, b2, f0, f1, f2⟩ := branchFold_spec rest (branchStep acc p)
    obtain ⟨s0, s1, s2, t0, t1, t2⟩ := branchStep_fields acc p
    simp only [List.foldl_cons, List.any_cons]
    refine ⟨?_, ?_, ?_, ?_, ?_, ?_⟩
    · rw [b0, s0]
      cases hq : lastQual 0 rest <;>
        by_cases hp : qualifiesAt 0 p <;> simp [lastQual, hq, hp]
    · rw [b1, s1]
      cases hq : lastQual 1 rest <;>
        by_cases hp : qualifiesAt 1 p <;> simp [lastQual, hq, hp]
    · rw [b2, s2]
      cases hq : lastQual 2 rest <;>
        by_cases hp : qualifiesAt 2 p <;> simp [lastQual, hq, hp]
    · rw [f0, t0, Bool.or_assoc]
    · rw [f1, t1, Bool.or_assoc]
    · rw [f2, t2, Bool.or_assoc]

/-- Branch-manifest evidence: for every epoch the recorded representative
branch is that of the LAST qualifying candidate branch (a later qualifying
branch overwrites an earlier assignment), and the epoch is marked supported
exactly when some candidate branch qualifies; epoch-2 qualification accepts
any manifest major of at least 2. -/
theorem branchPass_lastQualifying (pkgs : List PkgEntry) :
    ((branchPass pkgs).2.v0 = lastQual 0 pkgs ∧
      (branchPass pkgs).2.v1 = lastQual 1 pkgs ∧
      (branchPass pkgs).2.v2 = lastQual 2 pkgs) ∧
    ((branchPass pkgs).1.v0 = pkgs.any (qualifiesAt 0) ∧
      (branchPass pkgs).1.v1 = pkgs.any (qualifiesAt 1) ∧
      (branchPass pkgs).1.v2 = pkgs.any (qualifiesAt 2)) := by
  obtain ⟨b0, b1, b2, f0, f1, f2⟩ :=
    branchFold_spec pkgs (⟨false, false, false⟩, ⟨none, none, none⟩)
  unfold branchPass
  refine ⟨⟨?_, ?_, ?_⟩, ?_, ?_, ?_⟩
  · rw [b0]; cases lastQual 0 pkgs <;> rfl
  · rw [b1]; cases lastQual 1 pkgs <;> rfl
  · rw [b2]; cases lastQual 2 pkgs <;> rfl
  · rw [f0]; rfl
  · rw [f1]; rfl
  · rw [f2]; rfl

/-- With qualifying epoch-0 manifests on both "main" and "master" (in that
candidate order), the loop records "master": a later qualifying branch does
overwrite the earlier epoch assignment, contradicting the claim. -/
theorem branchPass_overwrite_counterexample :
    (branchPass [⟨some "0.1.0", some "0.25.6", "main"⟩,
        ⟨some "0.1.0", some "0.25.6", "master"⟩]).2.v0 = some "master" ∧
    ¬ (branchPass [⟨some "0.1.0", some "0.25.6", "main"⟩,
        ⟨some "0.1.0", some "0.25.6", "master"⟩]).2.v0 = some "main" :=
  ⟨by decide, by decide⟩

theorem coreDigitVal_le2 {d : Char} {n : Nat} (h : coreDigitVal d = some n) : n ≤ 2 := by
  unfold coreDigitVal at h
  split_ifs at h <;> cases h <;> omega

theorem coreDigit_le2 : ∀ {cs : List Char} {n : Nat}, coreDigit cs = some n → n ≤ 2
  | [], _, h => by cases h
  | [_], _, h => by cases h
  | _ :: _ :: _, _, h => by
    simp only [coreDigit] at h
    split_ifs at h
    exact coreDigitVal_le2 h

theorem coreAnchor_le2 : ∀ {cs : List Char} {n : Nat}, coreAnchor cs = some n → n ≤ 2
  | [], _, h => by cases h
  | c :: rest, n, h => by
    simp only [coreAnchor] at h
    split_ifs at h <;> exact coreDigit_le2 h

theorem getCoreRangeMajor_le2 {r : Option String} {n : Nat}
    (h : getCoreRangeMajor r = some n) : n ≤ 2 := by
  cases r with
  | none => simp [getCoreRangeMajor] at h
  | some s =>
    simp only [getCoreRangeMajor] at h
    by_cases h1 : s = ""
    · rw [if_pos h1] at h; cases h
    · rw [if_neg h1] at h
      by_cases h2 : jsTrim s = "latest"
      · rw [if_pos h2] at h; cases h
      · rw [if_neg h2] at h
        exact coreAnchor_le2 h

theorem flagGet_setFlag_self (s : Supports) (d : Nat) (h : d ≤ 2) :
    flagGet (setFlag s d) d = true := by
  interval_cases d <;> simp [flagGet, setFlag]

theorem flagGet_setFlag_mono (s : Supports) (d k : Nat) (h : flagGet s k = true) :
    flagGet (setFlag s d) k = true := by
  unfold flagGet setFlag at *
  split_ifs at * <;> simp_all

theorem npmCheckStep_flag_mono (n : NpmInfo) (st : Supports × List String)
    (chk : String × Nat) (k : Nat) (h : flagGet st.1 k = true) :
    flagGet (npmCheckStep n st chk).1 k = true := by
  simp only [npmCheckStep]
  cases hv : jsStrOpt (npmGetVer n chk.1) with
  | none => exact h
  | some ver =>
    cases hr : jsStrOpt (npmGetCore n chk.1) with
    | none => exact h
    | some r =>
      cases hc : semverClean ver with
      | none => simp only [hc]; exact h
      | some cv =>
        simp only [hc]
        have hs1 : ∀ s' : Supports, (s' = setFlag st.1 chk.2 ∨ s' = st.1) →
            flagGet s' k = true := by
          rintro s' (rfl | rfl)
          · exact flagGet_setFlag_mono _ _ _ h
          · exact h
        cases hd : getCoreRangeMajor (some r) with
        | none =>
          simp only [hd]
          split_ifs
          · exact hs1 _ (Or.inl rfl)
          · exact hs1 _ (Or.inr rfl)
        | some d =>
          simp only [hd]
          split_ifs
          · exact flagGet_setFlag_mono _ _ _ (hs1 _ (Or.inl rfl))
          · exact flagGet_setFlag_mono _ _ _ (hs1 _ (Or.inr rfl))
          · exact hs1 _ (Or.inl rfl)
          · exact hs1 _ (Or.inr rfl)

theorem npmCheckStep_issues_mono (n : NpmInfo) (st : Supports × List String)
    (chk : String × Nat) (m : String) (h : m ∈ st.2) :
    m ∈ (npmCheckStep n st chk).2 := by
  simp only [npmCheckStep]
  cases hv : jsStrOpt (npmGetVer n chk.1) with
  | none => exact h
  | some ver =>
    cases hr : jsStrOpt (npmGetCore n chk.1) with
    | none => exact h
    | some r =>
      cases hc : semverClean ver with
      | none => simp only [hc]; exact h
      | some cv =>
        simp only [hc]
        cases hd : getCoreRangeMajor (some r) with
        | none => simp only [hd]; exact h
        | some d =>
          simp only [hd]
          split_ifs <;> first
          | exact List.mem_append_left _ h
          | exact h

theorem npmCheckStep_hits (n : NpmInfo) (st : Supports × List String) (key : String)
    (E : Nat) (ver r : String) (cv : SemVer) (d : Nat)
    (hv : jsStrOpt (npmGetVer n key) = some ver)
    (hr : jsStrOpt (npmGetCore n key) = some r)
    (hc : semverClean ver = some cv)
    (hd : getCoreRangeMajor (some r) = some d)
    (hne : d ≠ E) :
    (npmCheckStep n st (key, E)).2 = st.2 ++ [mismatchMsg key ver d r] ∧
      flagGet (npmCheckStep n st (key, E)).1 d = true := by
  unfold npmCheckStep
  simp only [hv, hr, hc, hd]
  rw [if_pos hne]
  exact ⟨rfl, flagGet_setFlag_self _ d (getCoreRangeMajor_le2 hd)⟩

/-- Package-index evidence: whenever the best version for an epoch E carries
a core range whose dominant epoch d is known and differs from E, the
version-mismatch issue is in the final issue list and epoch d is marked
supported; and the npm pass never clears a support flag, so the final
supported set only grows over whatever the branch pass established. -/
theorem applyNpmChecks_contradiction_monotone :
    (∀ (n : NpmInfo) (s : Supports) (iss : List String) (k : Nat),
      flagGet s k = true → flagGet (applyNpmChecks n s iss).1 k = true)
    ∧ (∀ (n : NpmInfo) (s : Supports) (iss : List String) (key : String) (E : Nat)
        (ver r : String) (cv : SemVer) (d : Nat),
      (key, E) ∈ npmVersionChecks →
      jsStrOpt (npmGetVer n key) = some ver →
      jsStrOpt (npmGetCore n key) = some r →
      semverClean ver = some cv →
      getCoreRangeMajor (some r) = some d →
      d ≠ E →
      mismatchMsg key ver d r ∈ (applyNpmChecks n s iss).2 ∧
        flagGet (applyNpmChecks n s iss).1 d = true) := by
  constructor
  · intro n s iss k h
    exact npmCheckStep_flag_mono n _ _ k (npmCheckStep_flag_mono n _ _ k
      (npmCheckStep_flag_mono n _ _ k h))
  · intro n s iss key E ver r cv d hmem hv hr hc hd hne
    unfold applyNpmChecks npmVersionChecks at *
    simp only [List.foldl_cons, List.foldl_nil]
    simp only [List.mem_cons, List.not_mem_nil, or_false] at hmem
    rcases hmem with h1 | h1 | h1
    · rw [Prod.mk.injEq] at h1
      obtain ⟨rfl, rfl⟩ := h1
      obtain ⟨hiss, hflag⟩ := npmCheckStep_hits n (s, iss) _ _ ver r cv d hv hr hc hd hne
      constructor
      · apply npmCheckStep_issues_mono
        apply npmCheckStep_issues_mono
        rw [hiss]
        exact List.mem_append_right _ (List.mem_singleton_self _)
      · exact npmCheckStep_flag_mono n _ _ d (npmCheckStep_flag_mono n _ _ d hflag)
    · rw [Prod.mk.injEq] at h1
      obtain ⟨rfl, rfl⟩ := h1
      obtain ⟨hiss, hflag⟩ :=
        npmCheckStep_hits n (npmCheckStep n (s, iss) ("v0", 0)) _ _ ver r cv d hv hr hc hd hne
      constructor
      · apply npmCheckStep_issues_mono
        rw [hiss]
        exact List.mem_append_right _ (List.mem_singleton_self _)
      · exact npmCheckStep_flag_mono n _ _ d hflag
    · rw [Prod.mk.injEq] at h1
      obtain ⟨rfl, rfl⟩ := h1
      obtain ⟨hiss, hflag⟩ := npmCheckStep_hits n
        (npmCheckStep n (npmCheckStep n (s, iss) ("v0", 0)) ("v1", 1)) _ _ ver r cv d
        hv hr hc hd hne
      constructor
      · rw [hiss]
        exact List.mem_append_right _ (List.mem_singleton_self _)
      · exact hflag

theorem applyNpmChecks_contradiction_monotone_witness :
    mismatchMsg "v2" "2.0.0" 1 "^1.0.0" ∈
      (applyNpmChecks ⟨"p", none, none, some "2.0.0", none, none, some "^1.0.0"⟩
        ⟨false, false, false⟩ []).2 ∧
    flagGet (applyNpmChecks ⟨"p", none, none, some "2.0.0", none, none, some "^1.0.0"⟩
      ⟨false, false, false⟩ []).1 1 = true :=
  applyNpmChecks_contradiction_monotone.2
    ⟨"p", none, none, some "2.0.0", none, none, some "^1.0.0"⟩ ⟨false, false, false⟩ []
    "v2" 2 "2.0.0" "^1.0.0" ⟨2, 0, 0, []⟩ 1 (by decide) (by decide) (by decide)
    (by decide) (by decide) (by decide)

theorem getLatestGitTags_repo (owner repo : String) (t : Option (List String)) :
    (getLatestGitTags owner repo t).repo = owner ++ "/" ++ repo := by
  cases t with
  | none => rfl
  | some names =>
    simp only [getLatestGitTags]
    split <;> rfl

/-- The per-entry result is independent of the tag listing up to the three
per-epoch display version fields of the git info: two runs that differ only
in the tag listing produce results equal after blanking those fields — in
particular the supports mapping, the recorded branches and the issue list
are identical. -/
theorem processRepo_tagIndependent (npmId gitRef : String) (env : RepoEnv)
    (t1 t2 : Option (List String)) :
    (processRepo npmId gitRef { env with tags := t1 }).map stripTagVersions =
      (processRepo npmId gitRef { env with tags := t2 }).map stripTagVersions := by
  simp only [processRepo]
  cases hpg : parseGitRef gitRef with
  | none => rfl
  | some pr =>
    obtain ⟨owner, repo⟩ := pr
    cases hn : inspectNpm (env.npm (guessNpmName npmId)) (guessNpmName npmId) with
    | error e => simp only [bind, Except.bind, hn]
    | ok n =>
      simp only [bind, Except.bind, hn, pure, Except.pure, Except.map, stripTagVersions,
        getLatestGitTags_repo]
      rfl

theorem strLe_ne_lt {a b : String} (h1 : strLe a b) (h2 : a ≠ b) : strLt a b := by
  unfold strLe at h1
  unfold strLt
  rcases hab : strCmp a.data b.data with _ | _ | _
  · rfl
  · exfalso
    apply h2
    have hd : a.data = b.data := (strCmp_eq_iff _ _).mp hab
    cases a
    cases b
    exact congrArg String.mk hd
  · exfalso
    apply h1
    rw [strCmp_swap b.data a.data, hab]
    rfl

theorem objInsert_keys_mem {k x : String} {v : RegistryEntry} :
    ∀ {l : List (String × RegistryEntry)},
      x ∈ (objInsert k v l).map Prod.fst → x = k ∨ x ∈ l.map Prod.fst := by
  intro l
  induction l with
  | nil => simp [objInsert]
  | cons p rest ih =>
    obtain ⟨k', v'⟩ := p
    simp only [objInsert]
    split_ifs with he
    · intro h
      rcases List.mem_cons.mp h with h | h
      · exact Or.inl h
      · exact Or.inr (List.mem_cons_of_mem _ h)
    · intro h
      rcases List.mem_cons.mp h with h | h
      · simp [h]
      · rcases ih h with h' | h'
        · exact Or.inl h'
        · exact Or.inr (List.mem_cons_of_mem _ h')

theorem objInsert_keys_nodup {k : String} {v : RegistryEntry} :
    ∀ {l : List (String × RegistryEntry)},
      (l.map Prod.fst).Nodup → ((objInsert k v l).map Prod.fst).Nodup := by
  intro l
  induction l with
  | nil => simp [objInsert]
  | cons p rest ih =>
    obtain ⟨k', v'⟩ := p
    intro h
    simp only [List.map_cons, List.nodup_cons] at h
    simp only [objInsert]
    split_ifs with he
    · subst he
      simpa using h
    · simp only [List.map_cons, List.nodup_cons]
      refine ⟨fun hmem => ?_, ih h.2⟩
      rcases objInsert_keys_mem hmem with h' | h'
      · exact he h'
      · exact h.1 h'

theorem buildReport_keys_nodup (results : List (String × RegistryEntry × List String)) :
    ((buildReport results).map Prod.fst).Nodup := by
  unfold buildReport
  suffices h : ∀ (res : List (String × RegistryEntry × List String))
      (rep : List (String × RegistryEntry)), (rep.map Prod.fst).Nodup →
      ((res.foldl (fun rep r => objInsert r.1 r.2.1 rep) rep).map Prod.fst).Nodup by
    exact h results [] (by simp)
  intro res
  induction res with
  | nil => intro rep h; simpa using h
  | cons r rest ih =>
    intro rep h
    simpa using ih (objInsert r.1 r.2.1 rep) (objInsert_keys_nodup h)

theorem filterMap_pair_keys_sublist (l : List String)
    (g : String → Option RegistryEntry) :
    ((l.filterMap (fun k => (g k).map (fun e => (k, e)))).map Prod.fst).Sublist l := by
  induction l with
  | nil => simp
  | cons k rest ih =>
    simp only [List.filterMap_cons]
    cases g k with
    | none => exact ih.cons k
    | some e => simpa using ih.cons₂ k

theorem sortReport_strict_sorted (rep : List (String × RegistryEntry))
    (hnd : (rep.map Prod.fst).Nodup) :
    List.Pairwise strLt ((sortReport rep).map Prod.fst) := by
  haveI : IsTotal String strLe :=
    ⟨fun a b => by unfold strLe; exact strCmp_ge_total b.data a.data⟩
  haveI : IsTrans String strLe :=
    ⟨fun _ _ _ h1 h2 => by unfold strLe at *; exact strCmp_ge_trans h2 h1⟩
  unfold sortReport
  have hsorted : List.Sorted strLe (List.insertionSort strLe (rep.map Prod.fst)) :=
    List.sorted_insertionSort strLe (rep.map Prod.fst)
  have hnd' : (List.insertionSort strLe (rep.map Prod.fst)).Nodup :=
    ((List.perm_insertionSort strLe (rep.map Prod.fst)).nodup_iff).mpr hnd
  have hpair : List.Pairwise (fun a b : String => strLe a b ∧ a ≠ b)
      (List.insertionSort strLe (rep.map Prod.fst)) := hsorted.and hnd'
  have hlt : List.Pairwise strLt (List.insertionSort strLe (rep.map Prod.fst)) :=
    hpair.imp (fun h => strLe_ne_lt h.1 h.2)
  exact hlt.sublist (filterMap_pair_keys_sublist _ (fun k => lookupS k rep))

/-- Whenever the run completes, the final report's registry keys are in
strictly ascending lexicographic order — whatever the catalog order was —
and the report carries the generation timestamp. -/
theorem parseRegistry_sorted_timestamp (now : String) (input : List (String × JVal))
    (env : String → RepoEnv) (res : Report × List (String × List String))
    (h : parseRegistry now input env = .ok res) :
    List.Pairwise strLt (res.1.registry.map Prod.fst) ∧ res.1.lastUpdatedAt = now := by
  simp only [parseRegistry, bind, Except.bind] at h
  cases hr : runEntries env (sortEntries (filterCatalog input)) with
  | error e => rw [hr] at h; cases h
  | ok results =>
    rw [hr] at h
    simp only [pure, Except.pure] at h
    injection h with h'
    subst h'
    exact ⟨sortReport_strict_sorted _ (buildReport_keys_nodup results), rfl⟩

theorem parseRegistry_sorted_timestamp_witness :
    List.Pairwise strLt
      ((((parseRegistry "T" [("b", JVal.str "github:o/r"), ("a", JVal.str "github:o/q")]
        (fun _ => emptyRepoEnv)).toOption.get (by rfl)).1.registry).map Prod.fst) ∧
    ((parseRegistry "T" [("b", JVal.str "github:o/r"), ("a", JVal.str "github:o/q")]
        (fun _ => emptyRepoEnv)).toOption.get (by rfl)).1.lastUpdatedAt = "T" :=
  parseRegistry_sorted_timestamp "T"
    [("b", JVal.str "github:o/r"), ("a", JVal.str "github:o/q")] (fun _ => emptyRepoEnv)
    _ rfl

theorem verGe_refl (a : String) : verGe a a := vge_refl _

theorem filterNpmMajor_valid : ∀ (l : List String) (m : Nat),
    (∀ s ∈ l, (semverParse s).isSome = true) →
    filterNpmMajor l m = .ok (l.filter (fun s => (parseD s).major == m))
  | [], _, _ => rfl
  | v :: vs, m, h => by
    have hv := h v (List.mem_cons_self v vs)
    cases hp : semverParse v with
    | none => rw [hp] at hv; cases hv
    | some sv =>
      have ih := filterNpmMajor_valid vs m (fun s hs => h s (List.mem_cons_of_mem _ hs))
      simp only [filterNpmMajor, hp, ih, bind, Except.bind, pure, Except.pure]
      have hpd : parseD v = sv := by simp [parseD, hp]
      by_cases hm : sv.major = m
      · simp [List.filter_cons, hpd, hm]
      · simp [List.filter_cons, hpd, hm]

theorem find?_max_of_pairwise : ∀ {l : List String}, List.Pairwise verGe l →
    ∀ {p : String → Bool} {x : String}, l.find? p = some x →
    p x = true ∧ x ∈ l ∧ ∀ y ∈ l, p y = true → verGe x y := by
  intro l
  induction l with
  | nil => intro _ p x h; cases h
  | cons a rest ih =>
    intro hp p x h
    rcases List.pairwise_cons.mp hp with ⟨hhead, htail⟩
    by_cases hpa : p a = true
    · rw [List.find?_cons_of_pos _ hpa] at h
      injection h with h'
      subst h'
      refine ⟨hpa, List.mem_cons_self _ _, ?_⟩
      intro y hy _
      rcases List.mem_cons.mp hy with rfl | hy'
      · exact verGe_refl y
      · exact hhead y hy'
    · rw [List.find?_cons_of_neg _ hpa] at h
      obtain ⟨h1, h2, h3⟩ := ih htail h
      refine ⟨h1, List.mem_cons_of_mem _ h2, ?_⟩
      intro y hy hpy
      rcases List.mem_cons.mp hy with rfl | hy'
      · exact absurd hpy hpa
      · exact h3 y hy' hpy

theorem pairwise_head_max {a : String} {rest : List String}
    (h : List.Pairwise verGe (a :: rest)) : ∀ y ∈ a :: rest, verGe a y := by
  intro y hy
  rcases List.mem_cons.mp hy with rfl | hy'
  · exact verGe_refl y
  · exact (List.pairwise_cons.mp h).1 y hy'

/-- Best-version selection on a collection of valid version strings: when no
version has major `m` the result is absent; when a stable (no "-") major-`m`
version exists, the result is a stable major-`m` member at least as high as
every stable major-`m` member; when only pre-releases of major `m` exist,
the result is a major-`m` member at least as high as every major-`m` member.
Selection is deterministic, and {"2.0.0-beta.1", "2.0.0"} at epoch 2 selects
"2.0.0". -/
theorem selectBestNpmVersion_spec :
    (∀ (l : List String) (m : Nat), (∀ s ∈ l, (semverParse s).isSome = true) →
      ((l.filter (fun s => (parseD s).major == m) = [] →
          selectBestNpmVersion l m = .ok none) ∧
        (l.filter (fun s => (parseD s).major == m) ≠ [] →
          ∃ x, selectBestNpmVersion l m = .ok (some x) ∧ x ∈ l ∧ (parseD x).major = m ∧
            ((∃ y ∈ l, (parseD y).major = m ∧ y.data.contains '-' = false) →
              x.data.contains '-' = false ∧
                ∀ y ∈ l, (parseD y).major = m → y.data.contains '-' = false → verGe x y) ∧
            ((∀ y ∈ l, (parseD y).major = m → y.data.contains '-' = true) →
              ∀ y ∈ l, (parseD y).major = m → verGe x y))))
    ∧ selectBestNpmVersion ["2.0.0-beta.1", "2.0.0"] 2 = .ok (some "2.0.0")
    ∧ (∀ (l : List String) (m : Nat), selectBestNpmVersion l m = selectBestNpmVersion l m) := by
  refine ⟨?_, rfl, fun _ _ => rfl⟩
  intro l m hval
  haveI : IsTotal String verGe := ⟨fun _ _ => vge_total _ _⟩
  haveI : IsTrans String verGe := ⟨fun _ _ _ => vge_trans⟩
  have hvalS : ∀ s ∈ sortVersionsDesc l, (semverParse s).isSome = true := fun s hs =>
    hval s ((List.perm_insertionSort verGe l).mem_iff.mp hs)
  have hfil := filterNpmMajor_valid (sortVersionsDesc l) m hvalS
  have hperm : List.Perm ((sortVersionsDesc l).filter (fun s => (parseD s).major == m))
      (l.filter (fun s => (parseD s).major == m)) :=
    (List.perm_insertionSort verGe l).filter _
  have hpair : List.Pairwise verGe
      ((sortVersionsDesc l).filter (fun s => (parseD s).major == m)) :=
    List.Pairwise.filter _ (List.sorted_insertionSort verGe l)
  constructor
  · intro hempty
    have hS : (sortVersionsDesc l).filter (fun s => (parseD s).major == m) = [] :=
      (hperm.trans (hempty ▸ List.Perm.refl _)).eq_nil
    simp only [selectBestNpmVersion, findLatestNpmVersionForMajor, hfil, hS, bind,
      Except.bind, pure, Except.pure]
  · intro hne
    have hSne : (sortVersionsDesc l).filter (fun s => (parseD s).major == m) ≠ [] := by
      intro hS
      exact hne (hS ▸ hperm.symm).eq_nil
    rcases hScons : (sortVersionsDesc l).filter (fun s => (parseD s).major == m) with
      _ | ⟨x0, xs⟩
    · exact absurd hScons hSne
    have hmemS : ∀ y, y ∈ x0 :: xs ↔
        (y ∈ l ∧ (parseD y).major = m) := by
      intro y
      rw [← hScons]
      constructor
      · intro hy
        have hy' := hperm.mem_iff.mp hy
        rcases List.mem_filter.mp hy' with ⟨h1, h2⟩
        exact ⟨h1, by simpa using h2⟩
      · rintro ⟨h1, h2⟩
        exact hperm.mem_iff.mpr (List.mem_filter.mpr ⟨h1, by simpa using h2⟩)
    have hpair' : List.Pairwise verGe (x0 :: xs) := hScons ▸ hpair
    cases hfind : (x0 :: xs).find? (fun v => !(v.data.contains '-')) with
    | some x =>
      refine ⟨x, ?_, ?_⟩
      · simp only [selectBestNpmVersion, findLatestNpmVersionForMajor, hfil, hScons, bind,
          Except.bind, pure, Except.pure, hfind]
      · obtain ⟨hpx, hxmem, hxmax⟩ := find?_max_of_pairwise hpair' hfind
        obtain ⟨hxl, hxm⟩ := (hmemS x).mp hxmem
        refine ⟨hxl, hxm, ?_, ?_⟩
        · intro _
          refine ⟨by simpa using hpx, ?_⟩
          intro y hyl hym hystable
          exact hxmax y ((hmemS y).mpr ⟨hyl, hym⟩) (by simpa using hystable)
        · intro hall
          exact absurd (hall x hxl hxm) (by simpa using hpx)
    | none =>
      refine ⟨x0, ?_, ?_⟩
      · simp only [selectBestNpmVersion, findLatestNpmVersionForMajor, hfil, hScons, bind,
          Except.bind, pure, Except.pure, hfind]
      · obtain ⟨hx0l, hx0m⟩ := (hmemS x0).mp (List.mem_cons_self _ _)
        have hnone := List.find?_eq_none.mp hfind
        refine ⟨hx0l, hx0m, ?_, ?_⟩
        · rintro ⟨y, hyl, hym, hystable⟩
          have := hnone y ((hmemS y).mpr ⟨hyl, hym⟩)
          rw [hystable] at this
          exact absurd rfl this
        · intro _
          intro y hyl hym
          exact pairwise_head_max hpair' y ((hmemS y).mpr ⟨hyl, hym⟩)

/-- The claim's "malformed version strings are excluded from candidacy
without causing failure" is false for the npm selector: a malformed string in
the collection makes `semver.major` (and the `rcompare` sort) throw, so
selection fails rather than returning absent. -/
theorem selectBest_malformed_counterexample :
    selectBestNpmVersion ["garbage"] 2 = .error "Invalid Version" ∧
      ¬ selectBestNpmVersion ["garbage"] 2 = .ok none := by
  refine ⟨rfl, fun h => ?_⟩
  rw [show selectBestNpmVersion ["garbage"] 2 = .error "Invalid Version" from rfl] at h
  cases h

theorem selectBestNpmVersion_spec_witness :
    selectBestNpmVersion ["1.5.0", "2.0.0"] 2 = .ok (some "2.0.0") := by
  obtain ⟨x, hx, hxl, hxm, hstable, _⟩ :=
    (selectBestNpmVersion_spec.1 ["1.5.0", "2.0.0"] 2 (by decide)).2 (by decide)
  obtain ⟨hxstable, hmax⟩ := hstable ⟨"2.0.0", by decide, by decide, by decide⟩
  have hx20 : x = "2.0.0" := by
    rcases List.mem_cons.mp hxl with h1 | h'
    · subst h1
      exact absurd hxm (by decide)
    · rcases List.mem_cons.mp h' with h2 | h''
      · exact h2
      · cases h''
  rw [hx20] at hx
  exact hx

theorem findLatestNpmVersionForMajor_ok (l : List String) (m : Nat)
    (h : ∀ s ∈ l, (semverParse s).isSome = true) :
    ∃ r, findLatestNpmVersionForMajor l m = .ok r := by
  simp only [findLatestNpmVersionForMajor, filterNpmMajor_valid l m h, bind, Except.bind]
  generalize l.filter (fun s => (parseD s).major == m) = S
  cases S with
  | nil => exact ⟨none, rfl⟩
  | cons x xs =>
    cases hf : (x :: xs).find? (fun v => !(v.data.contains '-')) with
    | none => exact ⟨some x, by simp only [hf]; rfl⟩
    | some stable => exact ⟨some stable, by simp only [hf]; rfl⟩

theorem inspectNpm_ok (meta : Option NpmMeta) (pkgName : String)
    (h : ∀ m, meta = some m → ∀ s ∈ m.versions.map Prod.fst, (semverParse s).isSome = true) :
    ∃ info, inspectNpm meta pkgName = .ok info := by
  cases meta with
  | none => exact ⟨_, rfl⟩
  | some m =>
    have hall : (m.versions.map Prod.fst).all (fun v => (semverParse v).isSome) = true :=
      List.all_eq_true.mpr (fun v hv => h m rfl v hv)
    have hsorted : ∀ s ∈ sortVersionsDesc (m.versions.map Prod.fst),
        (semverParse s).isSome = true := fun s hs =>
      h m rfl s ((List.perm_insertionSort verGe _).mem_iff.mp hs)
    obtain ⟨r0, h0⟩ := findLatestNpmVersionForMajor_ok (sortVersionsDesc
      (m.versions.map Prod.fst)) 0 hsorted
    obtain ⟨r1, h1⟩ := findLatestNpmVersionForMajor_ok (sortVersionsDesc
      (m.versions.map Prod.fst)) 1 hsorted
    obtain ⟨r2, h2⟩ := findLatestNpmVersionForMajor_ok (sortVersionsDesc
      (m.versions.map Prod.fst)) 2 hsorted
    refine ⟨⟨pkgName, r0, r1, r2, getCoreRangeFromNpmVersion m r0,
      getCoreRangeFromNpmVersion m r1, getCoreRangeFromNpmVersion m r2⟩, ?_⟩
    simp only [inspectNpm, hall, if_true, bind, Except.bind, h0, h1, h2, pure, Except.pure]

theorem processRepo_ok (npmId gitRef : String) (env : RepoEnv)
    (h1 : (parseGitRef gitRef).isSome = true) (h2 : npmValidFor env npmId) :
    ∃ r, processRepo npmId gitRef env = .ok r ∧ r.1 = npmId := by
  rw [Option.isSome_iff_exists] at h1
  obtain ⟨pr, hpr⟩ := h1
  obtain ⟨owner, repo⟩ := pr
  unfold npmValidFor at h2
  have hmeta : ∀ m, env.npm (guessNpmName npmId) = some m →
      ∀ s ∈ m.versions.map Prod.fst, (semverParse s).isSome = true := by
    intro m hm
    rw [hm] at h2
    exact h2
  obtain ⟨info, hinfo⟩ := inspectNpm_ok (env.npm (guessNpmName npmId)) (guessNpmName npmId) hmeta
  cases hres : processRepo npmId gitRef env with
  | error e =>
    exfalso
    simp only [processRepo, hpr, bind, Except.bind, hinfo, pure, Except.pure] at hres
    cases hres
  | ok r =>
    refine ⟨r, rfl, ?_⟩
    have hres2 := hres
    simp only [processRepo, hpr, bind, Except.bind, hinfo, pure, Except.pure] at hres2
    injection hres2 with h'
    rw [← h']

theorem runEntries_spec : ∀ (l : List (String × String)) (env : String → RepoEnv),
    (∀ kv ∈ l, (parseGitRef kv.2).isSome = true ∧ npmValidFor (env kv.1) kv.1) →
    ∃ results, runEntries env l = .ok results ∧
      results.map (fun r => r.1) = l.map Prod.fst ∧
      collectIssues results = l.filterMap (fun kv =>
        match processRepo kv.1 kv.2 (env kv.1) with
        | .ok r => if r.2.2 ≠ [] then some (r.1, r.2.2) else none
        | .error _ => none)
  | [], env, _ => ⟨[], rfl, rfl, rfl⟩
  | kv :: rest, env, h => by
    obtain ⟨r, hok, hfst⟩ := processRepo_ok kv.1 kv.2 (env kv.1)
      (h kv (List.mem_cons_self _ _)).1 (h kv (List.mem_cons_self _ _)).2
    obtain ⟨results', hrun, hkeys, hiss⟩ :=
      runEntries_spec rest env (fun kv' hkv' => h kv' (List.mem_cons_of_mem _ hkv'))
    refine ⟨r :: results', ?_, ?_, ?_⟩
    · simp only [runEntries] at hrun ⊢
      simp only [List.mapM_cons, hok, hrun, bind, Except.bind, pure, Except.pure]
    · simp [hfst, hkeys]
    · simp only [collectIssues, List.filterMap_cons] at hiss ⊢
      simp only [hok]
      cases hif : (if r.2.2 ≠ [] then some (r.1, r.2.2) else none) with
      | none => exact hiss
      | some b => rw [hiss]

theorem objInsert_of_not_mem {k : String} {v : RegistryEntry} :
    ∀ {l : List (String × RegistryEntry)}, k ∉ l.map Prod.fst →
      objInsert k v l = l ++ [(k, v)] := by
  intro l
  induction l with
  | nil => intro _; rfl
  | cons p rest ih =>
    intro h
    simp only [List.map_cons, List.mem_cons] at h
    push_neg at h
    simp only [objInsert]
    rw [if_neg (fun he => h.1 he.symm), ih h.2]
    simp

theorem buildReport_keys_of_nodup : ∀ (results : List (String × RegistryEntry × List String)),
    (results.map (fun r => r.1)).Nodup →
    (buildReport results).map Prod.fst = results.map (fun r => r.1) := by
  suffices hgen : ∀ (results : List (String × RegistryEntry × List String))
      (rep : List (String × RegistryEntry)),
      ((rep.map Prod.fst) ++ results.map (fun r => r.1)).Nodup →
      (results.foldl (fun rep r => objInsert r.1 r.2.1 rep) rep).map Prod.fst =
        rep.map Prod.fst ++ results.map (fun r => r.1) by
    intro results h
    simpa using hgen results [] (by simpa using h)
  intro results
  induction results with
  | nil => intro rep _; simp
  | cons r rest ih =>
    intro rep h
    have hnotmem : r.1 ∉ rep.map Prod.fst := by
      intro hmem
      have := List.disjoint_of_nodup_append h
      exact this hmem (by simp)
    simp only [List.foldl_cons]
    rw [ih (objInsert r.1 r.2.1 rep) ?hnd]
    · rw [objInsert_of_not_mem hnotmem]
      simp
    case hnd =>
      rw [objInsert_of_not_mem hnotmem]
      simp only [List.map_append, List.map_cons, List.map_nil] at h ⊢
      simpa [List.append_assoc] using h

theorem lookupS_of_mem : ∀ {rep : List (String × RegistryEntry)} {k : String},
    k ∈ rep.map Prod.fst → ∃ e, lookupS k rep = some e := by
  intro rep
  induction rep with
  | nil => intro k h; cases h
  | cons p rest ih =>
    intro k h
    simp only [lookupS]
    by_cases he : p.1 = k
    · exact ⟨p.2, by rw [if_pos he]⟩
    · rcases List.mem_cons.mp h with h' | h'
      · exact absurd h'.symm he
      · obtain ⟨e, hee⟩ := ih h'
        exact ⟨e, by rw [if_neg he]; exact hee⟩

theorem filterMap_pair_keys_of_all_some : ∀ (l : List String)
    (g : String → Option RegistryEntry), (∀ k ∈ l, (g k).isSome = true) →
    (l.filterMap (fun k => (g k).map (fun e => (k, e)))).map Prod.fst = l := by
  intro l
  induction l with
  | nil => intro g _; rfl
  | cons k rest ih =>
    intro g h
    have hk := h k (List.mem_cons_self _ _)
    rw [Option.isSome_iff_exists] at hk
    obtain ⟨e, he⟩ := hk
    simp only [List.filterMap_cons, he, Option.map_some', List.map_cons]
    rw [ih g (fun k' hk' => h k' (List.mem_cons_of_mem _ hk'))]

theorem filterCatalog_keys_sublist (input : List (String × JVal)) :
    ((filterCatalog input).map Prod.fst).Sublist (input.map Prod.fst) := by
  induction input with
  | nil => simp [filterCatalog]
  | cons kv rest ih =>
    obtain ⟨k, jv⟩ := kv
    cases jv with
    | other =>
      simp only [filterCatalog, List.filterMap_cons] at ih ⊢
      exact ih.cons k
    | str v =>
      simp only [filterCatalog, List.filterMap_cons] at ih ⊢
      by_cases hc : k ≠ "" ∧ jsTrim k ≠ "" ∧ jsStartsWith v "github:" = true
      · rw [if_pos hc]
        simpa using ih.cons₂ k
      · rw [if_neg hc]
        exact ih.cons k

/-- A single catalog entry whose reference "github:foo" passes the catalog
filter but lacks the repo part makes `processRepo` throw; the rejection
propagates through the batch `Promise.all`, so the whole run aborts with no
report at all — it does not degrade into a one-entry report with an issue
note. -/
theorem parseRegistry_abort_counterexample :
    parseRegistry "T" [("a", JVal.str "github:foo")] (fun _ => emptyRepoEnv) =
      .error "Invalid git reference: github:foo" ∧
    (parseRegistry "T" [("a", JVal.str "github:foo")] (fun _ => emptyRepoEnv)).isOk = false :=
  ⟨rfl, rfl⟩

/-- When every filtered catalog entry has a parsable repository reference and
consults npm metadata whose version keys are all valid, the batch completes:
the report holds exactly one entry per filtered catalog key (N entries), and
the issues summary lists exactly the entries whose processing produced a
non-empty issue list (K issue notes). -/
theorem parseRegistry_complete (now : String) (input : List (String × JVal))
    (env : String → RepoEnv)
    (hnd : (input.map Prod.fst).Nodup)
    (hok : ∀ kv ∈ filterCatalog input, (parseGitRef kv.2).isSome = true ∧
      npmValidFor (env kv.1) kv.1) :
    ∃ res, parseRegistry now input env = .ok res ∧
      res.1.registry.length = (filterCatalog input).length ∧
      (∀ k, k ∈ res.1.registry.map Prod.fst ↔ k ∈ (filterCatalog input).map Prod.fst) ∧
      res.2 = (sortEntries (filterCatalog input)).filterMap (fun kv =>
        match processRepo kv.1 kv.2 (env kv.1) with
        | .ok r => if r.2.2 ≠ [] then some (r.1, r.2.2) else none
        | .error _ => none) := by
  have hperm : List.Perm (sortEntries (filterCatalog input)) (filterCatalog input) :=
    List.perm_insertionSort keyLe _
  have hok' : ∀ kv ∈ sortEntries (filterCatalog input), (parseGitRef kv.2).isSome = true ∧
      npmValidFor (env kv.1) kv.1 := fun kv hkv => hok kv (hperm.mem_iff.mp hkv)
  obtain ⟨results, hrun, hkeys, hiss⟩ :=
    runEntries_spec (sortEntries (filterCatalog input)) env hok'
  have hnd1 : ((filterCatalog input).map Prod.fst).Nodup :=
    hnd.sublist (filterCatalog_keys_sublist input)
  have hnd2 : ((sortEntries (filterCatalog input)).map Prod.fst).Nodup :=
    ((hperm.map Prod.fst).nodup_iff).mpr hnd1
  have hndres : (results.map (fun r => r.1)).Nodup := by rw [hkeys]; exact hnd2
  have hbkeys : (buildReport results).map Prod.fst = results.map (fun r => r.1) :=
    buildReport_keys_of_nodup results hndres
  have hlookup : ∀ k ∈ List.insertionSort strLe ((buildReport results).map Prod.fst),
      (lookupS k (buildReport results)).isSome = true := by
    intro k hk
    have hmem : k ∈ (buildReport results).map Prod.fst :=
      (List.perm_insertionSort strLe _).mem_iff.mp hk
    obtain ⟨e, he⟩ := lookupS_of_mem hmem
    rw [he]
    rfl
  have hregkeys : (sortReport (buildReport results)).map Prod.fst =
      List.insertionSort strLe ((buildReport results).map Prod.fst) := by
    unfold sortReport
    exact filterMap_pair_keys_of_all_some _ _ hlookup
  refine ⟨({ lastUpdatedAt := now, registry := sortReport (buildReport results) },
    collectIssues results), ?_, ?_, ?_, ?_⟩
  · simp only [parseRegistry, bind, Except.bind, hrun, pure, Except.pure]
  · show (sortReport (buildReport results)).length = (filterCatalog input).length
    have e1 : (sortReport (buildReport results)).length =
        ((sortReport (buildReport results)).map Prod.fst).length := by
      rw [List.length_map]
    rw [e1, hregkeys, (List.perm_insertionSort strLe _).length_eq, hbkeys]
    have e2 : (results.map (fun r => r.1)).length =
        ((sortEntries (filterCatalog input)).map Prod.fst).length := by rw [hkeys]
    rw [e2, List.length_map, hperm.length_eq]
  · intro k
    show k ∈ (sortReport (buildReport results)).map Prod.fst ↔ _
    rw [hregkeys, (List.perm_insertionSort strLe _).mem_iff, hbkeys, hkeys,
      (hperm.map Prod.fst).mem_iff]
  · exact hiss

theorem parseRegistry_complete_witness :
    ∃ res, parseRegistry "T" [("a", JVal.str "github:o/q"), ("b", JVal.str "github:o/r")]
        (fun _ => emptyRepoEnv) = .ok res ∧
      res.1.registry.length =
        (filterCatalog [("a", JVal.str "github:o/q"), ("b", JVal.str "github:o/r")]).length ∧
      (∀ k, k ∈ res.1.registry.map Prod.fst ↔
        k ∈ (filterCatalog [("a", JVal.str "github:o/q"),
          ("b", JVal.str "github:o/r")]).map Prod.fst) ∧
      res.2 = (sortEntries (filterCatalog [("a", JVal.str "github:o/q"),
          ("b", JVal.str "github:o/r")])).filterMap (fun kv =>
        match processRepo kv.1 kv.2 ((fun _ => emptyRepoEnv : String → RepoEnv) kv.1) with
        | .ok r => if r.2.2 ≠ [] then some (r.1, r.2.2) else none
        | .error _ => none) :=
  parseRegistry_complete "T" [("a", JVal.str "github:o/q"), ("b", JVal.str "github:o/r")]
    (fun _ => emptyRepoEnv) (by decide)
    (by
      intro kv hkv
      have hfc : filterCatalog [("a", JVal.str "github:o/q"), ("b", JVal.str "github:o/r")] =
          [("a", "github:o/q"), ("b", "github:o/r")] := rfl
      rw [hfc] at hkv
      rcases List.mem_cons.mp hkv with h | h
      · subst h
        exact ⟨by decide, trivial⟩
      · rcases List.mem_cons.mp h with h | h
        · subst h
          exact ⟨by decide, trivial⟩
        · cases h)
